import Mathlib

/-!
Natural-order filename comparison (`src/Utils/Strings.c`)

A shallow embedding of `tatap_filename_compare`, its tokenizer
`tatap_string_get_next_part` and `tatap_string_last_index_of_char`, together with
the C library routines they call.

Representation.  A C string is the list of its bytes before the terminating NUL,
each byte taken as an `unsigned char` (a natural number in `1 .. 255`); the
predicate `IsCStr` records that range.  A `gchar *` that may be `NULL` is an
`Option (List Nat)`; a pointer into a string is the suffix it points at.
An `int` is an `Int`; `wrap_int` is the reduction to 32-bit two's complement, applied
where the C code can leave the `int` range, and `atoi` is the one of glibc.  Strings
are taken to be shorter than `2^31` bytes, so that the `int` indices and lengths of the
code hold them exactly.  A comparison that dereferences `NULL`, or cannot allocate its
buffer, has no result (`none`).

The file has three layers: the embedding of the code, the vocabulary in which the
specification speaks about it together with the closed forms used in the proofs, and
the theorems, the claims of the specification last.
-/

namespace Tatap

/-! ## Constants and the part record -/

/-- The bound `NAME_MAX` of line 6. -/
abbrev NAME_MAX : Nat := 255
/-- The tag `PART_TYPE_DIGIT`. -/
abbrev PART_TYPE_DIGIT : Nat := 0
/-- The tag `PART_TYPE_NONDIGIT`. -/
abbrev PART_TYPE_NONDIGIT : Nat := 1
/-- The tag `PART_TYPE_EMPTY`. -/
abbrev PART_TYPE_EMPTY : Nat := 2

/-- The record `struct StrPart`: `data` is `none` for the `NULL` pointer. -/
structure StrPart where
  type : Nat
  length : Nat
  data : Option (List Nat)
deriving DecidableEq

/-! ## Library routines -/

/-- Reduction of an integer to the 32-bit two's complement range of `int`. -/
def wrap_int (z : Int) : Int := (z + 2147483648) % 4294967296 - 2147483648

/-- The length `strlen`. -/
def strlen (str : List Nat) : Nat := str.length

/-- The GLib test `g_ascii_isdigit`: the bytes `'0'` to `'9'`. -/
def g_ascii_isdigit (c : Nat) : Bool := decide (48 ≤ c) && decide (c ≤ 57)

/-- The C test `isspace` in the C locale: space, and `\t` to `\r`. -/
def isspace (c : Nat) : Bool := c == 32 || (decide (9 ≤ c) && decide (c ≤ 13))

/-- The GLib folding `TOLOWER`: `'A'..'Z'` go to `'a'..'z'`, every other byte stays. -/
def ascii_tolower (c : Nat) : Nat := if 65 ≤ c ∧ c ≤ 90 then c - 65 + 97 else c

/-- The byte at the head of a C string, the terminating NUL when the string is over. -/
def head_byte (s : List Nat) : Nat := s.headD 0

/-- The GLib routine `g_ascii_strncasecmp`: it walks both strings while `n` is not
used up and neither is over, returns the difference of the first two folded bytes
that differ, and afterwards the difference of the current bytes if `n` is not used
up, `0` otherwise. -/
def g_ascii_strncasecmp : List Nat → List Nat → Nat → Int
  | c1 :: s1, c2 :: s2, n + 1 =>
      if ascii_tolower c1 ≠ ascii_tolower c2 then
        (ascii_tolower c1 : Int) - (ascii_tolower c2 : Int)
      else g_ascii_strncasecmp s1 s2 n
  | s1, s2, n => if n ≠ 0 then (head_byte s1 : Int) - (head_byte s2 : Int) else 0

/-- The C routine `strcmp`, in the form that returns the difference of the first two
bytes that differ (bytes as `unsigned char`, the terminator counting as `0`). -/
def strcmp : List Nat → List Nat → Int
  | c1 :: s1, c2 :: s2 => if c1 = c2 then strcmp s1 s2 else (c1 : Int) - (c2 : Int)
  | s1, s2 => (head_byte s1 : Int) - (head_byte s2 : Int)

/-- The digits read by `atoi`: the value of the longest prefix of decimal digits,
accumulated from `acc`. -/
def atoi_digits : List Nat → Nat → Nat
  | [], acc => acc
  | c :: s, acc => if g_ascii_isdigit c then atoi_digits s (acc * 10 + (c - 48)) else acc

/-- The C routine `atoi` as glibc has it, `(int) strtol (s, NULL, 10)`: white space is
skipped, one sign is read, then decimal digits; `strtol` holds the value in a `long`,
where it stops at `LONG_MAX = 2^63 - 1` and at `LONG_MIN = -2^63`, and the cast keeps
the low 32 bits.  Within the `int` range this is the value read; outside it the C
standard leaves the result undefined. -/
def atoi (s : List Nat) : Int :=
  let t := s.dropWhile isspace
  if t.head? = some 45 then
    wrap_int (max (-(atoi_digits t.tail 0 : Int)) (-9223372036854775808))
  else if t.head? = some 43 then
    wrap_int (min (atoi_digits t.tail 0 : Int) 9223372036854775807)
  else wrap_int (min (atoi_digits t 0 : Int) 9223372036854775807)

/-- The GLib routine `g_strndup` for a length `n` below `SIZE_MAX`: the first `n`
bytes of the string (the whole string when it is shorter). -/
def g_strndup (str : List Nat) (n : Nat) : List Nat := str.take n

/-! ## The tokenizer -/

/-- The class of a byte, as computed on lines 81 and 90. -/
def part_type (c : Nat) : Nat :=
  if g_ascii_isdigit c then PART_TYPE_DIGIT else PART_TYPE_NONDIGIT

/-- The `do ... while` loop of lines 84-92.  The first argument is the string from
index `i` on; the result is the pair `(prev_type, i)` on leaving the loop. -/
def tatap_string_get_next_part_loop : List Nat → Nat → Nat → Nat → Nat × Nat
  | [], prev_type, _, i => (prev_type, i + 1)
  | c :: rest, _, type, i =>
      let prev_type := type
      let type := part_type c
      let i := i + 1
      if prev_type = type then tatap_string_get_next_part_loop rest prev_type type i
      else (prev_type, i)

/-- The function `tatap_string_get_next_part`: the returned cursor and the part
written through the second argument. -/
def tatap_string_get_next_part (str : List Nat) : Option (List Nat) × StrPart :=
  match str with
  | [] => (none, { type := PART_TYPE_EMPTY, length := 0, data := none })
  | c :: rest =>
      let type := part_type c
      let r := tatap_string_get_next_part_loop rest type type 1
      (some (str.drop (r.2 - 1)),
        { type := r.1, data := some (g_strndup str (r.2 - 1)), length := r.2 - 1 })

/-! ## The extension splitter -/

/-- The `for` loop of lines 101-105, with `n = i + 1`: it runs down from `i = n - 1`
to `i = 0`. -/
def tatap_string_last_index_of_char_loop (str : List Nat) (needle : Nat) : Nat → Int
  | 0 => -1
  | i + 1 =>
      if str.getD i 0 = needle then (i : Int)
      else tatap_string_last_index_of_char_loop str needle i

/-- The function `tatap_string_last_index_of_char`. -/
def tatap_string_last_index_of_char (str : List Nat) (needle : Nat) : Int :=
  let len := strlen str
  tatap_string_last_index_of_char_loop str needle len

/-! ## The comparator -/

/-- The body of the `do ... while` loop, lines 39-62, after both parts are read:
the pair `(result, end_flag)`.  There is no value when a part that is not `Empty`
has no text. -/
def tatap_filename_compare_parts (part_a part_b : StrPart) : Option (Int × Nat) :=
  if part_a.type = PART_TYPE_EMPTY then
    if part_b.type = PART_TYPE_EMPTY then some (0, 1)
    else some (-1, 1)
  else if part_b.type = PART_TYPE_EMPTY then some (1, 1)
  else
    match part_a.data, part_b.data with
    | some data_a, some data_b =>
        if part_a.type = PART_TYPE_DIGIT ∧ part_b.type = PART_TYPE_DIGIT then
          let int_a := atoi data_a
          let int_b := atoi data_b
          some (wrap_int (int_a - int_b), 0)
        else
          some (g_ascii_strncasecmp data_a data_b NAME_MAX, 0)
    | _, _ => none

/-- The `do ... while` loop of lines 36-63 from the cursors `next_a`, `next_b`, run for
at most `fuel` iterations: the value of `result` on leaving the loop.  Reading a part
through a `NULL` cursor has no result, nor has running out of iterations. -/
def tatap_filename_compare_loop : Nat → Option (List Nat) → Option (List Nat) → Option Int
  | 0, _, _ => none
  | _ + 1, none, _ => none
  | _ + 1, some _, none => none
  | fuel + 1, some str_a, some str_b =>
      let ra := tatap_string_get_next_part str_a
      let rb := tatap_string_get_next_part str_b
      match tatap_filename_compare_parts ra.2 rb.2 with
      | none => none
      | some (result, end_flag) =>
          if result = 0 ∧ end_flag = 0 then tatap_filename_compare_loop fuel ra.1 rb.1
          else some result

/-- The function `tatap_filename_compare`.  Each iteration of the loop consumes at
least one byte of `name_a` or stops, so `strlen name_a + 1` iterations are allowed.
When a name has no `'.'` its index is `-1`, which reaches the `gsize` parameter of
`g_strndup` as `SIZE_MAX`: the routine asks for `SIZE_MAX + 1 = 0` bytes and copies
into what it gets, so the call has no result. -/
def tatap_filename_compare (str_a str_b : List Nat) : Option Int :=
  let last_dot_a := tatap_string_last_index_of_char str_a 46
  let last_dot_b := tatap_string_last_index_of_char str_b 46
  if last_dot_a < 0 ∨ last_dot_b < 0 then none
  else
    let name_a := g_strndup str_a last_dot_a.toNat
    let name_b := g_strndup str_b last_dot_b.toNat
    match tatap_filename_compare_loop (strlen name_a + 1) (some name_a) (some name_b) with
    | none => none
    | some result =>
        if result = 0 then
          let ext_a := str_a.drop (last_dot_a + 1).toNat
          let ext_b := str_b.drop (last_dot_b + 1).toNat
          some (strcmp ext_a ext_b)
        else some result

/-! ## Vocabulary of the specification -/

/-- The bytes of an ASCII string literal, for writing names down. -/
def ascii (s : String) : List Nat := s.toList.map Char.toNat

/-- A well-formed C string: every byte is an `unsigned char` other than NUL. -/
def IsCStr (s : List Nat) : Prop := ∀ c ∈ s, 0 < c ∧ c < 256

instance (s : List Nat) : Decidable (IsCStr s) := by
  unfold IsCStr; infer_instance

/-- A string without the NUL byte. -/
def NulFree (s : List Nat) : Prop := ∀ c ∈ s, c ≠ 0

/-- The value in base 10 of a string of decimal digits. -/
def digits_value (d : List Nat) : Nat := d.foldl (fun acc c => acc * 10 + (c - 48)) 0

/-- A string made of the bytes `'0'` to `'9'` only. -/
def IsDigits (d : List Nat) : Prop := ∀ c ∈ d, g_ascii_isdigit c = true

instance (d : List Nat) : Decidable (IsDigits d) := by
  unfold IsDigits; infer_instance

/-- Every run of decimal digits inside `s` has a value within the range of `int`,
that is at most `2^31 - 1`. -/
def DigitRunsInRange (s : List Nat) : Prop :=
  ∀ d, d <:+: s → IsDigits d → digits_value d ≤ 2147483647

/-- The text of a part, empty when the part has none. -/
def part_text (p : StrPart) : List Nat := p.data.getD []

/-- The parts produced by calling `tatap_string_get_next_part` again and again, each
call at the cursor the previous one returned, up to and including the first `Empty`
part; `fuel` bounds the number of calls, and a call on the `NULL` cursor has no
result. -/
def tatap_string_parts_loop : Nat → Option (List Nat) → Option (List StrPart)
  | 0, _ => none
  | _ + 1, none => none
  | fuel + 1, some str =>
      let r := tatap_string_get_next_part str
      if r.2.type = PART_TYPE_EMPTY then some [r.2]
      else (tatap_string_parts_loop fuel r.1).map (fun ps => r.2 :: ps)

/-- The parts of a string: the repeated calls from its start, with one call allowed
per byte and one more for the `Empty` part. -/
def tatap_string_parts (s : List Nat) : Option (List StrPart) :=
  tatap_string_parts_loop (strlen s + 1) (some s)

/-- The end of `p` and the start of `t` are of different classes, or one of the two
strings is empty: a part of `p ++ t` ends where `p` ends. -/
def ClassBoundary (p t : List Nat) : Prop :=
  ∀ x ∈ p.getLast?, ∀ y ∈ t.head?, part_type x ≠ part_type y

instance (p t : List Nat) : Decidable (ClassBoundary p t) := by
  unfold ClassBoundary; infer_instance

/-! ## Closed forms used in the proofs -/

/-- The test "of the class of `c`" on bytes, the class being digit or non-digit. -/
def same_class (c : Nat) (x : Nat) : Bool := part_type x == part_type c

/-- The text that `g_ascii_strncasecmp` looks at: the first `n` bytes, folded. -/
def casefold_key (n : Nat) (s : List Nat) : List Nat := (s.take n).map ascii_tolower

/-- The comparison of the texts of two parts that are not `Empty` (lines 53-59):
by value when both start with a digit, by `g_ascii_strncasecmp` otherwise. -/
def run_compare (u v : List Nat) : Int :=
  if part_type (head_byte u) = PART_TYPE_DIGIT ∧ part_type (head_byte v) = PART_TYPE_DIGIT then
    wrap_int (atoi u - atoi v)
  else g_ascii_strncasecmp u v NAME_MAX

/-- The value of `result` after the loop of lines 36-63, as a function of the two
stems: the closed form of `tatap_filename_compare_loop`. -/
def stem_compare : List Nat → List Nat → Int
  | [], [] => 0
  | [], _ :: _ => -1
  | _ :: _, [] => 1
  | ca :: ra, cb :: rb =>
      if run_compare (ca :: ra.takeWhile (same_class ca))
          (cb :: rb.takeWhile (same_class cb)) = 0 then
        stem_compare (ra.dropWhile (same_class ca)) (rb.dropWhile (same_class cb))
      else
        run_compare (ca :: ra.takeWhile (same_class ca)) (cb :: rb.takeWhile (same_class cb))
termination_by a => a.length
decreasing_by
  simp_wf
  exact Nat.lt_succ_of_le (List.dropWhile_sublist _).length_le

/-- A text that the tokenizer can produce from a well-formed stem: not empty, without
NUL, and when it starts with a digit, all digits with a value in the `int` range. -/
def RunOK (u : List Nat) : Prop :=
  u ≠ [] ∧ NulFree u ∧
    (part_type (head_byte u) = PART_TYPE_DIGIT → IsDigits u ∧ digits_value u ≤ 2147483647)

/-- A stem the comparison is specified for: no NUL byte, digit runs in the `int` range. -/
def GoodStem (a : List Nat) : Prop := NulFree a ∧ DigitRunsInRange a

/-- The decomposition of a string into its parts, the `Empty` part at the end: the
closed form of `tatap_string_parts`. -/
def parts_of : List Nat → List StrPart
  | [] => [{ type := PART_TYPE_EMPTY, length := 0, data := none }]
  | c :: rest =>
      { type := part_type c,
        length := (rest.takeWhile (same_class c)).length + 1,
        data := some (c :: rest.takeWhile (same_class c)) } ::
        parts_of (rest.dropWhile (same_class c))
termination_by s => s.length
decreasing_by
  simp_wf
  exact Nat.lt_succ_of_le (List.dropWhile_sublist _).length_le

/-! ## The splitting of a name and the equality of parts -/

/-- The stem of a filename, as cut out on lines 27-30: the bytes before the index that
`tatap_string_last_index_of_char` returns for `'.'`. -/
def filename_stem (str : List Nat) : List Nat :=
  g_strndup str (tatap_string_last_index_of_char str 46).toNat

/-- The extension of a filename, as addressed on lines 67-68: the bytes after the index
that `tatap_string_last_index_of_char` returns for `'.'`. -/
def filename_ext (str : List Nat) : List Nat :=
  str.drop (tatap_string_last_index_of_char str 46 + 1).toNat

/-- A string whose bytes are below `256`. -/
def IsBytes (s : List Nat) : Prop := ∀ c ∈ s, c < 256

/-- Two parts are equal for the comparison: they are of the same kind, and they are two
digit runs of the same value, or two texts that agree on their first `NAME_MAX` bytes
after case folding (two `Empty` parts have the same, empty, text). -/
def part_equal (p q : StrPart) : Prop :=
  p.type = q.type ∧
    if p.type = PART_TYPE_DIGIT then digits_value (part_text p) = digits_value (part_text q)
    else ((part_text p).take NAME_MAX).map ascii_tolower =
      ((part_text q).take NAME_MAX).map ascii_tolower

instance (p q : StrPart) : Decidable (part_equal p q) := by
  unfold part_equal; infer_instance

/-! ## Facts about the library routines -/

theorem IsCStr.nulFree {s : List Nat} (h : IsCStr s) : NulFree s :=
  fun c hc => by have := (h c hc).1; omega

theorem nulFree_cons {c : Nat} {s : List Nat} :
    NulFree (c :: s) ↔ c ≠ 0 ∧ NulFree s := by
  simp [NulFree]

theorem nulFree_nil : NulFree [] := by simp [NulFree]

theorem strcmp_self (a : List Nat) : strcmp a a = 0 := by
  induction a with
  | nil => simp [strcmp, head_byte]
  | cons c s ih => simp [strcmp, ih]

theorem strcmp_antisymm (a b : List Nat) : strcmp b a = - strcmp a b := by
  induction a generalizing b with
  | nil => cases b <;> simp [strcmp, head_byte]
  | cons c s ih =>
    cases b with
    | nil => simp [strcmp, head_byte]
    | cons d t =>
      simp only [strcmp]
      by_cases h : c = d
      · subst h; simp [ih]
      · have h' : ¬ d = c := fun e => h e.symm
        simp [h, h']

theorem strcmp_eq_zero {a b : List Nat} (ha : NulFree a) (hb : NulFree b) :
    strcmp a b = 0 ↔ a = b := by
  induction a generalizing b with
  | nil =>
    cases b with
    | nil => simp [strcmp, head_byte]
    | cons d t =>
      have := (nulFree_cons.1 hb).1
      simp [strcmp, head_byte]; omega
  | cons c s ih =>
    cases b with
    | nil =>
      have := (nulFree_cons.1 ha).1
      simp [strcmp, head_byte]; omega
    | cons d t =>
      simp only [strcmp]
      by_cases h : c = d
      · subst h
        simp [ih (nulFree_cons.1 ha).2 (nulFree_cons.1 hb).2]
      · simp [h]; omega

theorem strcmp_trans {a b c : List Nat} (ha : NulFree a) (hb : NulFree b) (hc : NulFree c)
    (h1 : strcmp a b ≤ 0) (h2 : strcmp b c ≤ 0) : strcmp a c ≤ 0 := by
  induction a generalizing b c with
  | nil => cases c <;> simp [strcmp, head_byte]
  | cons x s ih =>
    have hx := (nulFree_cons.1 ha).1
    cases b with
    | nil => simp [strcmp, head_byte] at h1; omega
    | cons y t =>
      have hy := (nulFree_cons.1 hb).1
      cases c with
      | nil => simp [strcmp, head_byte] at h2; omega
      | cons z u =>
        simp only [strcmp] at h1 h2 ⊢
        by_cases hxy : x = y
        · subst hxy
          by_cases hxz : x = z
          · subst hxz
            simp only [if_true] at h1 h2 ⊢
            exact ih (nulFree_cons.1 ha).2 (nulFree_cons.1 hb).2 (nulFree_cons.1 hc).2 h1 h2
          · simp only [hxz, if_false] at h2 ⊢; exact h2
        · simp only [hxy, if_false] at h1
          by_cases hyz : y = z
          · subst hyz; simp only [hxy, if_false]; exact h1
          · simp only [hyz, if_false] at h2
            have : ¬ x = z := by omega
            simp only [this, if_false]; omega

theorem ascii_tolower_ne_zero {c : Nat} (h : c ≠ 0) : ascii_tolower c ≠ 0 := by
  unfold ascii_tolower; split <;> omega

theorem casefold_key_nulFree {n : Nat} {s : List Nat} (h : NulFree s) :
    NulFree (casefold_key n s) := by
  intro c hc
  simp only [casefold_key, List.mem_map] at hc
  obtain ⟨d, hd, rfl⟩ := hc
  exact ascii_tolower_ne_zero (h d (List.mem_of_mem_take hd))

theorem casefold_key_zero (s : List Nat) : casefold_key 0 s = [] := by
  simp [casefold_key]

theorem casefold_key_nil (n : Nat) : casefold_key n [] = [] := by
  simp [casefold_key]

theorem casefold_key_cons (n c : Nat) (s : List Nat) :
    casefold_key (n + 1) (c :: s) = ascii_tolower c :: casefold_key n s := by
  simp [casefold_key]

theorem strncasecmp_zero (a b : List Nat) : g_ascii_strncasecmp a b 0 = 0 := by
  cases a <;> cases b <;> simp [g_ascii_strncasecmp]

theorem strncasecmp_nil_left (b : List Nat) (n : Nat) :
    g_ascii_strncasecmp [] b n = if n ≠ 0 then - (head_byte b : Int) else 0 := by
  cases n <;> simp [g_ascii_strncasecmp, head_byte]

theorem strncasecmp_nil_right (a : List Nat) (n : Nat) :
    g_ascii_strncasecmp a [] n = if n ≠ 0 then (head_byte a : Int) else 0 := by
  cases a <;> cases n <;> simp [g_ascii_strncasecmp, head_byte]

theorem strncasecmp_cons (c d : Nat) (s t : List Nat) (n : Nat) :
    g_ascii_strncasecmp (c :: s) (d :: t) (n + 1) =
      if ascii_tolower c ≠ ascii_tolower d then
        (ascii_tolower c : Int) - (ascii_tolower d : Int)
      else g_ascii_strncasecmp s t n := by
  simp [g_ascii_strncasecmp]

theorem strncasecmp_self (a : List Nat) (n : Nat) : g_ascii_strncasecmp a a n = 0 := by
  induction a generalizing n with
  | nil => simp [strncasecmp_nil_left, head_byte]
  | cons c s ih =>
    cases n with
    | zero => exact strncasecmp_zero _ _
    | succ n => simp [strncasecmp_cons, ih]

theorem strncasecmp_antisymm (a b : List Nat) (n : Nat) :
    g_ascii_strncasecmp b a n = - g_ascii_strncasecmp a b n := by
  induction a generalizing b n with
  | nil => rw [strncasecmp_nil_left, strncasecmp_nil_right]; split <;> simp
  | cons c s ih =>
    cases b with
    | nil => rw [strncasecmp_nil_left, strncasecmp_nil_right]; split <;> simp
    | cons d t =>
      cases n with
      | zero => simp [strncasecmp_zero]
      | succ n =>
        rw [strncasecmp_cons, strncasecmp_cons]
        by_cases h : ascii_tolower c = ascii_tolower d
        · simp [h, ih]
        · have h' : ¬ ascii_tolower d = ascii_tolower c := fun e => h e.symm
          simp [h, h']

/-- The sign of `g_ascii_strncasecmp` is that of `strcmp` on the folded prefixes. -/
theorem strncasecmp_sign {a b : List Nat} (ha : NulFree a) (hb : NulFree b) (n : Nat) :
    (g_ascii_strncasecmp a b n ≤ 0 ↔ strcmp (casefold_key n a) (casefold_key n b) ≤ 0) ∧
    (g_ascii_strncasecmp a b n = 0 ↔ strcmp (casefold_key n a) (casefold_key n b) = 0) := by
  induction a generalizing b n with
  | nil =>
    cases n with
    | zero => simp [strncasecmp_zero, casefold_key_zero, strcmp, head_byte]
    | succ n =>
      cases b with
      | nil => simp [strncasecmp_nil_left, casefold_key_nil, strcmp, head_byte]
      | cons d t =>
        have := (nulFree_cons.1 hb).1
        have := ascii_tolower_ne_zero this
        simp [strncasecmp_nil_left, casefold_key_nil, casefold_key_cons, strcmp, head_byte]
        omega
  | cons c s ih =>
    have hc0 := (nulFree_cons.1 ha).1
    have hc1 := ascii_tolower_ne_zero hc0
    cases n with
    | zero => simp [strncasecmp_zero, casefold_key_zero, strcmp, head_byte]
    | succ n =>
      cases b with
      | nil =>
        simp [strncasecmp_nil_right, casefold_key_nil, casefold_key_cons, strcmp, head_byte]
        omega
      | cons d t =>
        rw [strncasecmp_cons, casefold_key_cons, casefold_key_cons]
        simp only [strcmp]
        by_cases h : ascii_tolower c = ascii_tolower d
        · simp only [h, ne_eq, not_true_eq_false, if_false, if_true]
          exact ih (nulFree_cons.1 ha).2 (nulFree_cons.1 hb).2 n
        · simp [h]

theorem strncasecmp_eq_zero {a b : List Nat} (ha : NulFree a) (hb : NulFree b) (n : Nat) :
    g_ascii_strncasecmp a b n = 0 ↔ casefold_key n a = casefold_key n b := by
  rw [(strncasecmp_sign ha hb n).2,
    strcmp_eq_zero (casefold_key_nulFree ha) (casefold_key_nulFree hb)]

theorem strncasecmp_trans {a b c : List Nat} (ha : NulFree a) (hb : NulFree b)
    (hc : NulFree c) (n : Nat) (h1 : g_ascii_strncasecmp a b n ≤ 0)
    (h2 : g_ascii_strncasecmp b c n ≤ 0) : g_ascii_strncasecmp a c n ≤ 0 := by
  rw [(strncasecmp_sign ha hc n).1]
  rw [(strncasecmp_sign ha hb n).1] at h1
  rw [(strncasecmp_sign hb hc n).1] at h2
  exact strcmp_trans (casefold_key_nulFree ha) (casefold_key_nulFree hb)
    (casefold_key_nulFree hc) h1 h2

theorem atoi_digits_eq_foldl {d : List Nat} (h : IsDigits d) (acc : Nat) :
    atoi_digits d acc = d.foldl (fun acc c => acc * 10 + (c - 48)) acc := by
  induction d generalizing acc with
  | nil => rfl
  | cons c s ih =>
    have hc : g_ascii_isdigit c = true := h c (List.mem_cons_self _ _)
    have hs : IsDigits s := fun x hx => h x (List.mem_cons_of_mem _ hx)
    simp [atoi_digits, hc, ih hs]

theorem isspace_of_isdigit {c : Nat} (h : g_ascii_isdigit c = true) : isspace c = false := by
  simp [g_ascii_isdigit] at h
  simp [isspace]; omega

theorem atoi_of_digits {d : List Nat} (h : IsDigits d) :
    atoi d = wrap_int (min (digits_value d : Int) 9223372036854775807) := by
  cases d with
  | nil => decide
  | cons c s =>
    have hc : g_ascii_isdigit c = true := h c (List.mem_cons_self _ _)
    have hsp := isspace_of_isdigit hc
    have h45 : c ≠ 45 := by simp [g_ascii_isdigit] at hc; omega
    have h43 : c ≠ 43 := by simp [g_ascii_isdigit] at hc; omega
    unfold atoi
    rw [List.dropWhile_cons_of_neg (by simp [hsp])]
    simp only [List.head?_cons, Option.some.injEq, h45, h43, if_false]
    rw [atoi_digits_eq_foldl h]; rfl

theorem wrap_int_of_range {z : Int} (h1 : -2147483648 ≤ z) (h2 : z ≤ 2147483647) :
    wrap_int z = z := by
  unfold wrap_int; omega

theorem digits_value_append (a b : List Nat) :
    digits_value (a ++ b) = b.foldl (fun acc c => acc * 10 + (c - 48)) (digits_value a) := by
  simp [digits_value, List.foldl_append]

theorem digits_value_zeros (k : Nat) : digits_value (List.replicate k 48) = 0 := by
  induction k with
  | zero => rfl
  | succ k ih =>
    rw [List.replicate_succ', digits_value_append, ih]; rfl

theorem digits_value_zeros_append (k : Nat) (d : List Nat) :
    digits_value (List.replicate k 48 ++ d) = digits_value d := by
  rw [digits_value_append, digits_value_zeros]; rfl

/-! ## The tokenizer in closed form -/

theorem next_part_loop_eq (rest : List Nat) (t i : Nat) :
    tatap_string_get_next_part_loop rest t t i =
      (t, i + (rest.takeWhile (fun x => part_type x == t)).length + 1) := by
  induction rest generalizing i with
  | nil => simp [tatap_string_get_next_part_loop]
  | cons c s ih =>
    by_cases h : t = part_type c
    · rw [tatap_string_get_next_part_loop]
      simp only [h, if_true]
      rw [← h, ih, List.takeWhile_cons]
      simp [h]; omega
    · have h' : ¬ part_type c = t := fun e => h e.symm
      rw [tatap_string_get_next_part_loop]
      simp only [h, if_false]
      rw [List.takeWhile_cons]
      simp [h']

theorem next_part_nil :
    tatap_string_get_next_part [] =
      (none, { type := PART_TYPE_EMPTY, length := 0, data := none }) := rfl

theorem next_part_cons (c : Nat) (rest : List Nat) :
    tatap_string_get_next_part (c :: rest) =
      (some (rest.dropWhile (same_class c)),
        { type := part_type c,
          length := (rest.takeWhile (same_class c)).length + 1,
          data := some (c :: rest.takeWhile (same_class c)) }) := by
  have hk : ∀ (l : List Nat) (p : Nat → Bool),
      l.take (l.takeWhile p).length = l.takeWhile p ∧
      l.drop (l.takeWhile p).length = l.dropWhile p := by
    intro l p
    induction l with
    | nil => simp
    | cons x xs ih =>
      by_cases hx : p x = true
      · simp [List.takeWhile_cons_of_pos hx, List.dropWhile_cons_of_pos hx, ih.1, ih.2]
      · simp [List.takeWhile_cons_of_neg hx, List.dropWhile_cons_of_neg hx]
  have e : (fun x => part_type x == part_type c) = same_class c := rfl
  simp only [tatap_string_get_next_part, next_part_loop_eq, g_strndup, e]
  have h1 : 1 + (rest.takeWhile (same_class c)).length + 1 - 1
      = (rest.takeWhile (same_class c)).length + 1 := by omega
  rw [h1]
  simp [(hk rest (same_class c)).1, (hk rest (same_class c)).2]

/-! ## The comparator in closed form -/

theorem part_type_ne_empty (c : Nat) : part_type c ≠ PART_TYPE_EMPTY := by
  unfold part_type; split <;> decide

theorem stem_compare_nil_nil : stem_compare [] [] = 0 := by
  rw [stem_compare]

theorem stem_compare_nil_cons (c : Nat) (s : List Nat) : stem_compare [] (c :: s) = -1 := by
  rw [stem_compare]

theorem stem_compare_cons_nil (c : Nat) (s : List Nat) : stem_compare (c :: s) [] = 1 := by
  rw [stem_compare]

theorem stem_compare_cons_cons (ca cb : Nat) (ra rb : List Nat) :
    stem_compare (ca :: ra) (cb :: rb) =
      if run_compare (ca :: ra.takeWhile (same_class ca))
          (cb :: rb.takeWhile (same_class cb)) = 0 then
        stem_compare (ra.dropWhile (same_class ca)) (rb.dropWhile (same_class cb))
      else
        run_compare (ca :: ra.takeWhile (same_class ca))
          (cb :: rb.takeWhile (same_class cb)) := by
  rw [stem_compare]

theorem compare_loop_eq (fuel : Nat) (a b : List Nat) (h : a.length < fuel) :
    tatap_filename_compare_loop fuel (some a) (some b) = some (stem_compare a b) := by
  induction fuel generalizing a b with
  | zero => omega
  | succ f ih =>
    cases a with
    | nil =>
      cases b with
      | nil =>
        simp [tatap_filename_compare_loop, next_part_nil, tatap_filename_compare_parts,
          stem_compare_nil_nil]
      | cons cb rb =>
        simp [tatap_filename_compare_loop, next_part_nil, next_part_cons,
          tatap_filename_compare_parts, stem_compare_nil_cons, part_type_ne_empty]
    | cons ca ra =>
      cases b with
      | nil =>
        simp [tatap_filename_compare_loop, next_part_nil, next_part_cons,
          tatap_filename_compare_parts, stem_compare_cons_nil, part_type_ne_empty]
      | cons cb rb =>
        have hlen : (ra.dropWhile (same_class ca)).length < f := by
          have := (List.dropWhile_sublist (same_class ca) (l := ra)).length_le
          simp at h; omega
        have ih' := ih _ (rb.dropWhile (same_class cb)) hlen
        rw [stem_compare_cons_cons]
        simp only [tatap_filename_compare_loop, next_part_cons, tatap_filename_compare_parts,
          part_type_ne_empty, if_false, run_compare, head_byte, List.headD_cons]
        by_cases hd : part_type ca = PART_TYPE_DIGIT ∧ part_type cb = PART_TYPE_DIGIT
        · simp only [hd, and_self, if_true, and_true]
          split
          · exact ih'
          · rfl
        · simp only [hd, if_false, and_true]
          split
          · exact ih'
          · rfl

theorem last_index_loop_split (s e : List Nat) (c : Nat) (hc : c ∉ e) (k : Nat)
    (hk : k ≤ e.length) :
    tatap_string_last_index_of_char_loop (s ++ c :: e) c (s.length + 1 + k) = (s.length : Int) := by
  induction k with
  | zero =>
    have hget : (s ++ c :: e).getD s.length 0 = c := by
      rw [List.getD_eq_getElem?_getD, List.getElem?_append_right (le_refl _)]
      simp
    rw [Nat.add_zero, tatap_string_last_index_of_char_loop, hget, if_pos rfl]
  | succ k ih =>
    have hk' : k < e.length := by omega
    have e1 : s.length + 1 + (k + 1) = (s.length + 1 + k) + 1 := by omega
    rw [e1, tatap_string_last_index_of_char_loop]
    have hget : (s ++ c :: e).getD (s.length + 1 + k) 0 = e[k] := by
      rw [List.getD_eq_getElem?_getD, List.getElem?_append_right (by omega)]
      have : s.length + 1 + k - s.length = k + 1 := by omega
      rw [this]
      simp [List.getElem?_eq_getElem hk']
    have hne : e[k] ≠ c := fun h => hc (h ▸ List.getElem_mem hk')
    rw [hget, if_neg hne]
    exact ih (by omega)

theorem last_index_split (s e : List Nat) (c : Nat) (hc : c ∉ e) :
    tatap_string_last_index_of_char (s ++ c :: e) c = (s.length : Int) := by
  have := last_index_loop_split s e c hc e.length (le_refl _)
  simpa [tatap_string_last_index_of_char, strlen, Nat.add_assoc, Nat.add_comm 1] using this

theorem exists_last_split {x : List Nat} {c : Nat} (h : c ∈ x) :
    ∃ s e, x = s ++ c :: e ∧ c ∉ e := by
  have h' : c ∈ x.reverse := List.mem_reverse.2 h
  obtain ⟨as, bs, hx, hnot⟩ := List.eq_append_cons_of_mem h'
  refine ⟨bs.reverse, as.reverse, ?_, ?_⟩
  · have := congrArg List.reverse hx
    simpa using this
  · simpa using hnot

/-- The result of `tatap_filename_compare` on two names split at their last `'.'`. -/
theorem compare_split (s1 e1 s2 e2 : List Nat) (h1 : 46 ∉ e1) (h2 : 46 ∉ e2) :
    tatap_filename_compare (s1 ++ 46 :: e1) (s2 ++ 46 :: e2) =
      some (if stem_compare s1 s2 = 0 then strcmp e1 e2 else stem_compare s1 s2) := by
  unfold tatap_filename_compare
  simp only [last_index_split s1 e1 46 h1, last_index_split s2 e2 46 h2, g_strndup,
    Int.toNat_ofNat, strlen]
  have ha : List.take s1.length (s1 ++ 46 :: e1) = s1 := by simp
  have hb : List.take s2.length (s2 ++ 46 :: e2) = s2 := by simp
  have hc : ∀ (s e : List Nat), List.drop ((s.length : Int) + 1).toNat (s ++ 46 :: e) = e := by
    intro s e
    have : ((s.length : Int) + 1).toNat = s.length + 1 := by omega
    rw [this]; simp
  rw [ha, hb, hc, hc, compare_loop_eq _ _ _ (Nat.lt_succ_self _)]
  have hn1 : ¬ ((s1.length : Int) < 0 ∨ (s2.length : Int) < 0) := by omega
  simp only [hn1, if_false]
  split <;> rfl

/-! ## Common prefixes and reflexivity -/

theorem same_class_iff (c x : Nat) : same_class c x = true ↔ part_type x = part_type c := by
  simp [same_class]

theorem classBoundary_nil_left (t : List Nat) : ClassBoundary [] t := by
  simp [ClassBoundary]

theorem classBoundary_nil_right (p : List Nat) : ClassBoundary p [] := by
  simp [ClassBoundary]

theorem run_append_boundary (c : Nat) (t : List Nat) (rest : List Nat) :
    ∀ d, part_type d = part_type c → ClassBoundary (d :: rest) t →
      (rest ++ t).takeWhile (same_class c) = rest.takeWhile (same_class c) ∧
      (rest ++ t).dropWhile (same_class c) = rest.dropWhile (same_class c) ++ t ∧
      ClassBoundary (rest.dropWhile (same_class c)) t := by
  induction rest with
  | nil =>
    intro d hd hb
    cases t with
    | nil => simp [classBoundary_nil_right]
    | cons y ys =>
      have hy : part_type d ≠ part_type y := hb d (by simp) y (by simp)
      have hny : ¬ same_class c y = true := by
        rw [same_class_iff]; intro e; exact hy (by rw [hd, e])
      simp [List.takeWhile_cons, List.dropWhile_cons, hny, classBoundary_nil_left]
  | cons x xs ih =>
    intro d hd hb
    have hb' : ClassBoundary (x :: xs) t := by
      intro u hu y hy
      exact hb u (by simpa [List.getLast?_cons_cons] using hu) y hy
    by_cases hx : same_class c x = true
    · obtain ⟨h1, h2, h3⟩ := ih x ((same_class_iff c x).1 hx) hb'
      simp [List.takeWhile_cons, List.dropWhile_cons, hx, h1, h2, h3]
    · simp [List.takeWhile_cons, List.dropWhile_cons, hx, hb']

theorem head_byte_cons (c : Nat) (s : List Nat) : head_byte (c :: s) = c := rfl

theorem wrap_int_zero : wrap_int 0 = 0 := by decide

theorem run_compare_self (u : List Nat) : run_compare u u = 0 := by
  unfold run_compare
  split
  · simp [wrap_int_zero]
  · exact strncasecmp_self _ _

theorem dropWhile_length_lt (c : Nat) (rest : List Nat) {n : Nat}
    (h : (c :: rest).length ≤ n + 1) : (rest.dropWhile (same_class c)).length ≤ n := by
  have hl := (List.dropWhile_sublist (same_class c) (l := rest)).length_le
  simp at h; omega

theorem stem_compare_self (a : List Nat) : stem_compare a a = 0 := by
  suffices H : ∀ n (a : List Nat), a.length ≤ n → stem_compare a a = 0 from H _ a (le_refl _)
  intro n
  induction n with
  | zero =>
    intro a h
    have : a = [] := List.length_eq_zero.1 (by omega)
    subst this; exact stem_compare_nil_nil
  | succ n ih =>
    intro a h
    cases a with
    | nil => exact stem_compare_nil_nil
    | cons c rest =>
      rw [stem_compare_cons_cons, run_compare_self, if_pos rfl]
      exact ih _ (dropWhile_length_lt c rest h)

/-- A common prefix that ends at a part boundary on both sides does not count. -/
theorem stem_compare_append (p t1 t2 : List Nat) (h1 : ClassBoundary p t1)
    (h2 : ClassBoundary p t2) : stem_compare (p ++ t1) (p ++ t2) = stem_compare t1 t2 := by
  suffices H : ∀ n (p : List Nat), p.length ≤ n → ClassBoundary p t1 → ClassBoundary p t2 →
      stem_compare (p ++ t1) (p ++ t2) = stem_compare t1 t2 from H _ p (le_refl _) h1 h2
  intro n
  induction n with
  | zero =>
    intro p h _ _
    have : p = [] := List.length_eq_zero.1 (by omega)
    subst this; rfl
  | succ n ih =>
    intro p h h1 h2
    cases p with
    | nil => rfl
    | cons c rest =>
      obtain ⟨a1, a2, a3⟩ := run_append_boundary c t1 rest c rfl h1
      obtain ⟨b1, b2, b3⟩ := run_append_boundary c t2 rest c rfl h2
      rw [List.cons_append, List.cons_append, stem_compare_cons_cons, a1, b1, a2, b2,
        run_compare_self, if_pos rfl]
      exact ih _ (dropWhile_length_lt c rest h) a3 b3

/-! ## The order on parts -/

theorem part_type_digit_iff (c : Nat) :
    part_type c = PART_TYPE_DIGIT ↔ g_ascii_isdigit c = true := by
  unfold part_type; split <;> simp_all

theorem part_type_tolower (c : Nat) : part_type (ascii_tolower c) = part_type c := by
  unfold part_type ascii_tolower g_ascii_isdigit
  by_cases h : 65 ≤ c ∧ c ≤ 90
  · have h1 : ¬ (48 ≤ c - 65 + 97 ∧ c - 65 + 97 ≤ 57) := by omega
    have h2 : ¬ (48 ≤ c ∧ c ≤ 57) := by omega
    simp [h, h1, h2]
  · simp [h]

theorem run_compare_digits {u v : List Nat} (hu : RunOK u) (hv : RunOK v)
    (du : part_type (head_byte u) = PART_TYPE_DIGIT)
    (dv : part_type (head_byte v) = PART_TYPE_DIGIT) :
    run_compare u v = (digits_value u : Int) - (digits_value v : Int) := by
  obtain ⟨hu1, hu2⟩ := hu.2.2 du
  obtain ⟨hv1, hv2⟩ := hv.2.2 dv
  have e1 : wrap_int (min (digits_value u : Int) 9223372036854775807) = digits_value u := by
    rw [min_eq_left (by omega)]; exact wrap_int_of_range (by omega) (by omega)
  have e2 : wrap_int (min (digits_value v : Int) 9223372036854775807) = digits_value v := by
    rw [min_eq_left (by omega)]; exact wrap_int_of_range (by omega) (by omega)
  unfold run_compare
  rw [if_pos ⟨du, dv⟩, atoi_of_digits hu1, atoi_of_digits hv1, e1, e2]
  exact wrap_int_of_range (by omega) (by omega)

theorem run_compare_text {u v : List Nat}
    (h : ¬ (part_type (head_byte u) = PART_TYPE_DIGIT ∧
      part_type (head_byte v) = PART_TYPE_DIGIT)) :
    run_compare u v = g_ascii_strncasecmp u v NAME_MAX := by
  unfold run_compare; rw [if_neg h]

/-- A digit run against a text run: the first bytes decide. -/
theorem run_compare_mixed {u v : List Nat} (hu : u ≠ []) (hv : v ≠ [])
    (h : part_type (head_byte u) ≠ part_type (head_byte v)) :
    run_compare u v =
      (ascii_tolower (head_byte u) : Int) - (ascii_tolower (head_byte v) : Int) ∧
    ascii_tolower (head_byte u) ≠ ascii_tolower (head_byte v) := by
  cases u with
  | nil => exact absurd rfl hu
  | cons c s =>
    cases v with
    | nil => exact absurd rfl hv
    | cons d t =>
      simp only [head_byte_cons] at h ⊢
      have hne : ascii_tolower c ≠ ascii_tolower d := by
        intro e
        apply h
        rw [← part_type_tolower c, ← part_type_tolower d, e]
      refine ⟨?_, hne⟩
      have hnd : ¬ (part_type (head_byte (c :: s)) = PART_TYPE_DIGIT ∧
          part_type (head_byte (d :: t)) = PART_TYPE_DIGIT) := by
        simp only [head_byte_cons]
        intro ⟨h1, h2⟩; exact h (h1.trans h2.symm)
      rw [run_compare_text hnd]
      show g_ascii_strncasecmp (c :: s) (d :: t) (254 + 1) = _
      rw [strncasecmp_cons, if_pos hne]

theorem run_compare_antisymm {u v : List Nat} (hu : RunOK u) (hv : RunOK v) :
    run_compare v u = - run_compare u v := by
  by_cases h : part_type (head_byte u) = PART_TYPE_DIGIT ∧
      part_type (head_byte v) = PART_TYPE_DIGIT
  · rw [run_compare_digits hu hv h.1 h.2, run_compare_digits hv hu h.2 h.1]; omega
  · rw [run_compare_text h, run_compare_text (fun h' => h ⟨h'.2, h'.1⟩)]
    exact strncasecmp_antisymm _ _ _

theorem part_type_cases (c : Nat) :
    (part_type c = PART_TYPE_DIGIT ∧ 48 ≤ c ∧ c ≤ 57) ∨
    (part_type c = PART_TYPE_NONDIGIT ∧ (c < 48 ∨ 57 < c)) := by
  unfold part_type g_ascii_isdigit
  split <;> simp_all
  omega

theorem tolower_digit {c : Nat} (h : part_type c = PART_TYPE_DIGIT) : ascii_tolower c = c := by
  rcases part_type_cases c with ⟨_, h1, h2⟩ | ⟨h1, _⟩
  · unfold ascii_tolower; rw [if_neg (by omega)]
  · rw [h] at h1; exact absurd h1 (by decide)

theorem run_compare_trans {u v w : List Nat} (hu : RunOK u) (hv : RunOK v) (hw : RunOK w)
    (h1 : run_compare u v ≤ 0) (h2 : run_compare v w ≤ 0) : run_compare u w ≤ 0 := by
  have key : ∀ x : List Nat, part_type (head_byte x) = PART_TYPE_DIGIT ∨
      part_type (head_byte x) = PART_TYPE_NONDIGIT := fun x => by
    rcases part_type_cases (head_byte x) with h | h
    · exact Or.inl h.1
    · exact Or.inr h.1
  have hDN : PART_TYPE_DIGIT ≠ PART_TYPE_NONDIGIT := by decide
  have cu := part_type_cases (ascii_tolower (head_byte u))
  have cv := part_type_cases (ascii_tolower (head_byte v))
  have cw := part_type_cases (ascii_tolower (head_byte w))
  rw [part_type_tolower] at cu cv cw
  rcases key u with du | du <;> rcases key v with dv | dv <;> rcases key w with dw | dw
  · rw [run_compare_digits hu hv du dv] at h1
    rw [run_compare_digits hv hw dv dw] at h2
    rw [run_compare_digits hu hw du dw]; omega
  · have m2 := run_compare_mixed hv.1 hw.1 (by rw [dv, dw]; exact hDN)
    have m3 := run_compare_mixed hu.1 hw.1 (by rw [du, dw]; exact hDN)
    rw [m2.1] at h2; rw [m3.1]
    rw [du] at cu; rw [dv] at cv; rw [dw] at cw
    simp at cu cv cw; omega
  · have m1 := run_compare_mixed hu.1 hv.1 (by rw [du, dv]; exact hDN)
    have m2 := run_compare_mixed hv.1 hw.1 (by rw [dv, dw]; exact hDN.symm)
    rw [m1.1] at h1; rw [m2.1] at h2
    rw [du] at cu; rw [dv] at cv; rw [dw] at cw
    simp at cu cv cw; omega
  · rw [run_compare_text (by rw [dv]; simp)] at h1
    rw [run_compare_text (by rw [dv]; simp)] at h2
    rw [run_compare_text (by rw [dw]; simp)]
    exact strncasecmp_trans hu.2.1 hv.2.1 hw.2.1 _ h1 h2
  · have m1 := run_compare_mixed hu.1 hv.1 (by rw [du, dv]; exact hDN.symm)
    have m3 := run_compare_mixed hu.1 hw.1 (by rw [du, dw]; exact hDN.symm)
    rw [m1.1] at h1; rw [m3.1]
    rw [du] at cu; rw [dv] at cv; rw [dw] at cw
    simp at cu cv cw; omega
  · rw [run_compare_text (by rw [du]; simp)] at h1
    rw [run_compare_text (by rw [dw]; simp)] at h2
    rw [run_compare_text (by rw [du]; simp)]
    exact strncasecmp_trans hu.2.1 hv.2.1 hw.2.1 _ h1 h2
  · rw [run_compare_text (by rw [du]; simp)] at h1
    rw [run_compare_text (by rw [dv]; simp)] at h2
    rw [run_compare_text (by rw [du]; simp)]
    exact strncasecmp_trans hu.2.1 hv.2.1 hw.2.1 _ h1 h2
  · rw [run_compare_text (by rw [du]; simp)] at h1
    rw [run_compare_text (by rw [dv]; simp)] at h2
    rw [run_compare_text (by rw [du]; simp)]
    exact strncasecmp_trans hu.2.1 hv.2.1 hw.2.1 _ h1 h2

/-! ## The order on stems -/

theorem goodStem_mono {a b : List Nat} (h : a <:+: b) (hb : GoodStem b) : GoodStem a :=
  ⟨fun c hc => hb.1 c (h.subset hc), fun d hd => hb.2 d (hd.trans h)⟩

theorem run_initial (c : Nat) (rest : List Nat) :
    (c :: rest.takeWhile (same_class c)) <+: (c :: rest) := by
  obtain ⟨t, ht⟩ := List.takeWhile_prefix (same_class c) (l := rest)
  exact ⟨t, by simp [ht]⟩

theorem run_isDigits (c : Nat) (rest : List Nat) (h : part_type c = PART_TYPE_DIGIT) :
    IsDigits (c :: rest.takeWhile (same_class c)) := by
  intro x hx
  rcases List.mem_cons.1 hx with rfl | hx
  · exact (part_type_digit_iff _).1 h
  · have := List.mem_takeWhile_imp hx
    rw [same_class_iff, h] at this
    exact (part_type_digit_iff _).1 this

/-- The first part of a well-formed stem is a well-formed text, and what is left of
the stem is well formed. -/
theorem goodStem_step (c : Nat) (rest : List Nat) (h : GoodStem (c :: rest)) :
    RunOK (c :: rest.takeWhile (same_class c)) ∧ GoodStem (rest.dropWhile (same_class c)) := by
  have hp := run_initial c rest
  have hg := goodStem_mono hp.isInfix h
  refine ⟨⟨by simp, hg.1, ?_⟩, ?_⟩
  · intro hd
    simp only [head_byte_cons] at hd
    have hdig := run_isDigits c rest hd
    exact ⟨hdig, h.2 _ hp.isInfix hdig⟩
  · exact goodStem_mono
      ((List.dropWhile_suffix (same_class c)).isInfix.trans (List.suffix_cons c rest).isInfix) h

theorem stem_compare_antisymm (a b : List Nat) (ha : GoodStem a) (hb : GoodStem b) :
    stem_compare b a = - stem_compare a b := by
  suffices H : ∀ n (a b : List Nat), a.length ≤ n → GoodStem a → GoodStem b →
      stem_compare b a = - stem_compare a b from H _ a b (le_refl _) ha hb
  intro n
  induction n with
  | zero =>
    intro a b h _ _
    have : a = [] := List.length_eq_zero.1 (by omega)
    subst this
    cases b with
    | nil => simp [stem_compare_nil_nil]
    | cons cb rb => simp [stem_compare_nil_cons, stem_compare_cons_nil]
  | succ n ih =>
    intro a b h ha hb
    cases a with
    | nil =>
      cases b with
      | nil => simp [stem_compare_nil_nil]
      | cons cb rb => simp [stem_compare_nil_cons, stem_compare_cons_nil]
    | cons ca ra =>
      cases b with
      | nil => simp [stem_compare_nil_cons, stem_compare_cons_nil]
      | cons cb rb =>
        obtain ⟨ua, ga⟩ := goodStem_step ca ra ha
        obtain ⟨ub, gb⟩ := goodStem_step cb rb hb
        rw [stem_compare_cons_cons, stem_compare_cons_cons, run_compare_antisymm ua ub,
          ih _ _ (dropWhile_length_lt ca ra h) ga gb]
        by_cases hz : run_compare (ca :: ra.takeWhile (same_class ca))
            (cb :: rb.takeWhile (same_class cb)) = 0
        · simp [hz]
        · simp [hz]

/-- From an antisymmetric and transitive three-way comparison: when `a ≤ b ≤ c` and
`a`, `c` compare equal, so do `a`, `b` and `b`, `c`. -/
theorem squeeze_of_antisymm_trans {α : Type} (P : α → Prop) (cmp : α → α → Int)
    (anti : ∀ a b, P a → P b → cmp b a = - cmp a b)
    (trans : ∀ a b c, P a → P b → P c → cmp a b ≤ 0 → cmp b c ≤ 0 → cmp a c ≤ 0)
    {a b c : α} (ha : P a) (hb : P b) (hc : P c)
    (h1 : cmp a b ≤ 0) (h2 : cmp b c ≤ 0) (h3 : cmp a c = 0) :
    cmp a b = 0 ∧ cmp b c = 0 := by
  have hca : cmp c a ≤ 0 := by rw [anti a c ha hc, h3]; simp
  have hcb : cmp c b ≤ 0 := trans c a b hc ha hb hca h1
  have hba : cmp b a ≤ 0 := trans b c a hb hc ha h2 hca
  rw [anti b c hb hc] at hcb
  rw [anti a b ha hb] at hba
  constructor <;> omega

theorem run_compare_squeeze {u v w : List Nat} (hu : RunOK u) (hv : RunOK v) (hw : RunOK w)
    (h1 : run_compare u v ≤ 0) (h2 : run_compare v w ≤ 0) (h3 : run_compare u w = 0) :
    run_compare u v = 0 ∧ run_compare v w = 0 :=
  squeeze_of_antisymm_trans RunOK run_compare
    (fun _ _ ha hb => run_compare_antisymm ha hb)
    (fun _ _ _ ha hb hc => run_compare_trans ha hb hc) hu hv hw h1 h2 h3

theorem stem_compare_trans (a b c : List Nat) (ha : GoodStem a) (hb : GoodStem b)
    (hc : GoodStem c) (h1 : stem_compare a b ≤ 0) (h2 : stem_compare b c ≤ 0) :
    stem_compare a c ≤ 0 := by
  suffices H : ∀ n (a b c : List Nat), a.length ≤ n → GoodStem a → GoodStem b → GoodStem c →
      stem_compare a b ≤ 0 → stem_compare b c ≤ 0 → stem_compare a c ≤ 0 from
    H _ a b c (le_refl _) ha hb hc h1 h2
  intro n
  induction n with
  | zero =>
    intro a b c h _ _ _ _ _
    have : a = [] := List.length_eq_zero.1 (by omega)
    subst this
    cases c <;> simp [stem_compare_nil_nil, stem_compare_nil_cons]
  | succ n ih =>
    intro a b c h ha hb hc h1 h2
    cases a with
    | nil => cases c <;> simp [stem_compare_nil_nil, stem_compare_nil_cons]
    | cons ca ra =>
      cases b with
      | nil => rw [stem_compare_cons_nil] at h1; omega
      | cons cb rb =>
        cases c with
        | nil => rw [stem_compare_cons_nil] at h2; omega
        | cons cc rc =>
          obtain ⟨ua, ga⟩ := goodStem_step ca ra ha
          obtain ⟨ub, gb⟩ := goodStem_step cb rb hb
          obtain ⟨uc, gc⟩ := goodStem_step cc rc hc
          rw [stem_compare_cons_cons] at h1 h2 ⊢
          have p1 : run_compare (ca :: ra.takeWhile (same_class ca))
              (cb :: rb.takeWhile (same_class cb)) ≤ 0 := by
            split at h1
            · omega
            · exact h1
          have p2 : run_compare (cb :: rb.takeWhile (same_class cb))
              (cc :: rc.takeWhile (same_class cc)) ≤ 0 := by
            split at h2
            · omega
            · exact h2
          have p3 := run_compare_trans ua ub uc p1 p2
          by_cases hz : run_compare (ca :: ra.takeWhile (same_class ca))
              (cc :: rc.takeWhile (same_class cc)) = 0
          · obtain ⟨z1, z2⟩ := run_compare_squeeze ua ub uc p1 p2 hz
            rw [if_pos z1] at h1
            rw [if_pos z2] at h2
            rw [if_pos hz]
            exact ih _ _ _ (dropWhile_length_lt ca ra h) ga gb gc h1 h2
          · rw [if_neg hz]; exact p3

theorem stem_compare_squeeze {a b c : List Nat} (ha : GoodStem a) (hb : GoodStem b)
    (hc : GoodStem c) (h1 : stem_compare a b ≤ 0) (h2 : stem_compare b c ≤ 0)
    (h3 : stem_compare a c = 0) : stem_compare a b = 0 ∧ stem_compare b c = 0 :=
  squeeze_of_antisymm_trans GoodStem stem_compare
    (fun a b ha hb => stem_compare_antisymm a b ha hb)
    (fun a b c ha hb hc => stem_compare_trans a b c ha hb hc) ha hb hc h1 h2 h3

/-! ## Digit runs, case folding and the byte order -/

theorem digits_foldl_lt {d : List Nat} (h : IsDigits d) (acc : Nat) :
    d.foldl (fun acc c => acc * 10 + (c - 48)) acc < (acc + 1) * 10 ^ d.length := by
  induction d generalizing acc with
  | nil => simp
  | cons c s ih =>
    have hc : g_ascii_isdigit c = true := h c (List.mem_cons_self _ _)
    have hs : IsDigits s := fun x hx => h x (List.mem_cons_of_mem _ hx)
    simp [g_ascii_isdigit] at hc
    have := ih hs (acc * 10 + (c - 48))
    simp only [List.foldl_cons, List.length_cons]
    calc _ < (acc * 10 + (c - 48) + 1) * 10 ^ s.length := this
      _ ≤ ((acc + 1) * 10) * 10 ^ s.length := Nat.mul_le_mul_right _ (by omega)
      _ = (acc + 1) * 10 ^ (s.length + 1) := by rw [pow_succ]; ring

theorem digits_value_lt {d : List Nat} (h : IsDigits d) : digits_value d < 10 ^ d.length := by
  have := digits_foldl_lt h 0
  simpa [digits_value] using this

/-- A string of at most nine bytes has all its digit runs in the `int` range. -/
theorem digitRunsInRange_of_short {s : List Nat} (h : s.length ≤ 9) : DigitRunsInRange s := by
  intro d hd hdig
  have h1 := digits_value_lt hdig
  have h2 : d.length ≤ 9 := le_trans hd.length_le h
  have h3 : 10 ^ d.length ≤ 10 ^ 9 := Nat.pow_le_pow_right (by decide) h2
  have h4 : (10 : Nat) ^ 9 = 1000000000 := by norm_num
  omega

theorem goodStem_of_split {x s e : List Nat} (hx : x = s ++ 46 :: e) (h1 : IsCStr x)
    (h2 : DigitRunsInRange x) : GoodStem s ∧ NulFree e := by
  subst hx
  refine ⟨goodStem_mono (List.prefix_append s _).isInfix ⟨h1.nulFree, h2⟩, ?_⟩
  intro c hc
  exact h1.nulFree c (by simp [hc])

/-- Two stems that start with a whole part each: the parts are compared, and when
they are equal the comparison goes on behind them. -/
theorem stem_compare_runs (u v s t : List Nat) (hu : u ≠ []) (hv : v ≠ [])
    (cu : ∀ x ∈ u, part_type x = part_type (head_byte u))
    (cv : ∀ x ∈ v, part_type x = part_type (head_byte v))
    (bu : ClassBoundary u s) (bv : ClassBoundary v t) :
    stem_compare (u ++ s) (v ++ t) =
      if run_compare u v = 0 then stem_compare s t else run_compare u v := by
  have key : ∀ (c : Nat) (r s : List Nat),
      (∀ x ∈ c :: r, part_type x = part_type (head_byte (c :: r))) →
      ClassBoundary (c :: r) s →
      (r ++ s).takeWhile (same_class c) = r ∧ (r ++ s).dropWhile (same_class c) = s := by
    intro c r s hc hb
    obtain ⟨h1, h2, _⟩ := run_append_boundary c s r c rfl hb
    have hall : ∀ x ∈ r, same_class c x = true := fun x hx =>
      (same_class_iff c x).2 (hc x (List.mem_cons_of_mem _ hx))
    rw [h1, h2, List.takeWhile_eq_self_iff.2 hall, List.dropWhile_eq_nil_iff.2 hall]
    simp
  cases u with
  | nil => exact absurd rfl hu
  | cons c r =>
    cases v with
    | nil => exact absurd rfl hv
    | cons d q =>
      obtain ⟨a1, a2⟩ := key c r s cu bu
      obtain ⟨b1, b2⟩ := key d q t cv bv
      rw [List.cons_append, List.cons_append, stem_compare_cons_cons, a1, a2, b1, b2]

theorem isDigits_nulFree {d : List Nat} (h : IsDigits d) : NulFree d := by
  intro c hc
  have := h c hc
  simp [g_ascii_isdigit] at this
  omega

theorem isDigits_class {d : List Nat} (h : IsDigits d) :
    ∀ x ∈ d, part_type x = PART_TYPE_DIGIT :=
  fun x hx => (part_type_digit_iff x).2 (h x hx)

theorem isDigits_head {d : List Nat} (h : IsDigits d) (hd : d ≠ []) :
    part_type (head_byte d) = PART_TYPE_DIGIT := by
  cases d with
  | nil => exact absurd rfl hd
  | cons c s => exact isDigits_class h c (List.mem_cons_self _ _)

theorem isDigits_boundary_left {p d : List Nat}
    (hp : ∀ c ∈ p.getLast?, g_ascii_isdigit c = false) (h : IsDigits d) :
    ClassBoundary p d := by
  intro x hx y hy
  have h1 := hp x hx
  have h2 := h y (List.mem_of_mem_head? hy)
  unfold part_type
  rw [h1, h2]; decide

theorem isDigits_boundary_right {d s : List Nat}
    (hs : ∀ c ∈ s.head?, g_ascii_isdigit c = false) (h : IsDigits d) :
    ClassBoundary d s := by
  intro x hx y hy
  have h1 := hs y hy
  have h2 := h x (List.mem_of_mem_getLast? hx)
  unfold part_type
  rw [h1, h2]; decide

theorem map_tolower_while (q : Nat → Bool) (hq : ∀ x, q (ascii_tolower x) = q x)
    (l1 l2 : List Nat) (h : l1.map ascii_tolower = l2.map ascii_tolower) :
    (l1.takeWhile q).map ascii_tolower = (l2.takeWhile q).map ascii_tolower ∧
    (l1.dropWhile q).map ascii_tolower = (l2.dropWhile q).map ascii_tolower := by
  induction l1 generalizing l2 with
  | nil =>
    cases l2 with
    | nil => simp
    | cons y ys => simp at h
  | cons x xs ih =>
    cases l2 with
    | nil => simp at h
    | cons y ys =>
      simp only [List.map_cons, List.cons.injEq] at h
      have hxy : q x = q y := by rw [← hq x, ← hq y, h.1]
      obtain ⟨i1, i2⟩ := ih ys h.2
      by_cases hy : q y = true
      · have hx : q x = true := hxy.trans hy
        simp [List.takeWhile_cons, List.dropWhile_cons, hx, hy, h.1, i1, i2]
      · have hx : ¬ q x = true := by rw [hxy]; exact hy
        simp [List.takeWhile_cons, List.dropWhile_cons, hx, hy, h.1, h.2]

theorem strncasecmp_of_casefold (u v : List Nat)
    (h : u.map ascii_tolower = v.map ascii_tolower) (n : Nat) :
    g_ascii_strncasecmp u v n = 0 := by
  induction u generalizing v n with
  | nil =>
    cases v with
    | nil => exact strncasecmp_self _ _
    | cons y ys => simp at h
  | cons x xs ih =>
    cases v with
    | nil => simp at h
    | cons y ys =>
      simp only [List.map_cons, List.cons.injEq] at h
      cases n with
      | zero => exact strncasecmp_zero _ _
      | succ n => rw [strncasecmp_cons, if_neg (by simp [h.1])]; exact ih ys h.2 n

theorem map_tolower_digits {d : List Nat} (h : IsDigits d) : d.map ascii_tolower = d := by
  induction d with
  | nil => rfl
  | cons c s ih =>
    have hc := tolower_digit (isDigits_class h c (List.mem_cons_self _ _))
    have hs : IsDigits s := fun x hx => h x (List.mem_cons_of_mem _ hx)
    simp [hc, ih hs]

theorem stem_compare_casefold (a b : List Nat)
    (h : a.map ascii_tolower = b.map ascii_tolower) : stem_compare a b = 0 := by
  suffices H : ∀ n (a b : List Nat), a.length ≤ n →
      a.map ascii_tolower = b.map ascii_tolower → stem_compare a b = 0 from
    H _ a b (le_refl _) h
  intro n
  induction n with
  | zero =>
    intro a b hl h
    have : a = [] := List.length_eq_zero.1 (by omega)
    subst this
    cases b with
    | nil => exact stem_compare_nil_nil
    | cons y ys => simp at h
  | succ n ih =>
    intro a b hl h
    cases a with
    | nil =>
      cases b with
      | nil => exact stem_compare_nil_nil
      | cons y ys => simp at h
    | cons ca ra =>
      cases b with
      | nil => simp at h
      | cons cb rb =>
        simp only [List.map_cons, List.cons.injEq] at h
        have hcls : part_type ca = part_type cb := by
          rw [← part_type_tolower ca, ← part_type_tolower cb, h.1]
        have hsame : same_class ca = same_class cb := by
          funext x; simp [same_class, hcls]
        have hq : ∀ x, same_class cb (ascii_tolower x) = same_class cb x := by
          intro x; simp [same_class, part_type_tolower]
        obtain ⟨t1, t2⟩ := map_tolower_while (same_class cb) hq ra rb h.2
        have hrun : run_compare (ca :: ra.takeWhile (same_class ca))
            (cb :: rb.takeWhile (same_class cb)) = 0 := by
          rw [hsame]
          have hmap : (ca :: ra.takeWhile (same_class cb)).map ascii_tolower =
              (cb :: rb.takeWhile (same_class cb)).map ascii_tolower := by
            simp [h.1, t1]
          by_cases hd : part_type ca = PART_TYPE_DIGIT
          · have d1 := run_isDigits ca ra hd
            have d2 := run_isDigits cb rb (hcls ▸ hd)
            rw [hsame] at d1
            rw [map_tolower_digits d1, map_tolower_digits d2] at hmap
            rw [hmap]; exact run_compare_self _
          · rw [run_compare_text (by simp only [head_byte_cons]; exact fun h' => hd h'.1)]
            exact strncasecmp_of_casefold _ _ hmap _
        rw [stem_compare_cons_cons, if_pos hrun, hsame]
        have hl' := dropWhile_length_lt ca ra hl
        rw [hsame] at hl'
        exact ih _ _ hl' t2

/-- The model of `strcmp` is negative exactly on lexicographically increasing pairs. -/
theorem strcmp_neg_iff_lex {a b : List Nat} (ha : NulFree a) (hb : NulFree b) :
    strcmp a b < 0 ↔ List.Lex (fun m n : Nat => m < n) a b := by
  induction a generalizing b with
  | nil =>
    cases b with
    | nil =>
      simp only [strcmp, head_byte, List.headD_nil]
      constructor
      · intro h; omega
      · intro h; cases h
    | cons d t =>
      have := (nulFree_cons.1 hb).1
      simp only [strcmp, head_byte, List.headD_nil, List.headD_cons]
      constructor
      · intro _; exact List.Lex.nil
      · intro _; omega
  | cons c s ih =>
    cases b with
    | nil =>
      simp only [strcmp, head_byte, List.headD_nil, List.headD_cons]
      constructor
      · intro h; omega
      · intro h; cases h
    | cons d t =>
      simp only [strcmp]
      have ih' := ih (nulFree_cons.1 ha).2 (nulFree_cons.1 hb).2 (b := t)
      by_cases h : c = d
      · subst h
        simp only [if_true, ih']
        constructor
        · intro hlt; exact List.Lex.cons hlt
        · intro hlt
          cases hlt with
          | cons hst => exact hst
          | rel hcd => exact absurd hcd (lt_irrefl _)
      · simp only [h, if_false]
        constructor
        · intro hlt; exact List.Lex.rel (by omega)
        · intro hlt
          cases hlt with
          | cons hst => exact absurd rfl h
          | rel hcd => omega

theorem classBoundary_append_right {p u : List Nat} (s : List Nat) (hu : u ≠ [])
    (h : ClassBoundary p u) : ClassBoundary p (u ++ s) := by
  intro x hx y hy
  cases u with
  | nil => exact absurd rfl hu
  | cons a as => exact h x hx y hy

/-! ## The decomposition of a string -/

theorem parts_of_nil :
    parts_of [] = [{ type := PART_TYPE_EMPTY, length := 0, data := none }] := by
  rw [parts_of]

theorem parts_of_cons (c : Nat) (rest : List Nat) :
    parts_of (c :: rest) =
      { type := part_type c,
        length := (rest.takeWhile (same_class c)).length + 1,
        data := some (c :: rest.takeWhile (same_class c)) } ::
        parts_of (rest.dropWhile (same_class c)) := by
  rw [parts_of]

theorem parts_loop_eq (fuel : Nat) (s : List Nat) (h : s.length < fuel) :
    tatap_string_parts_loop fuel (some s) = some (parts_of s) := by
  induction fuel generalizing s with
  | zero => omega
  | succ f ih =>
    cases s with
    | nil => simp [tatap_string_parts_loop, next_part_nil, parts_of_nil]
    | cons c rest =>
      have hl : (rest.dropWhile (same_class c)).length < f := by
        have := dropWhile_length_lt c rest (n := f) (by simp at h ⊢; omega)
        have h2 := (List.dropWhile_sublist (same_class c) (l := rest)).length_le
        simp at h; omega
      simp [tatap_string_parts_loop, next_part_cons, part_type_ne_empty, ih _ hl,
        parts_of_cons]

theorem parts_eq (s : List Nat) : tatap_string_parts s = some (parts_of s) :=
  parts_loop_eq _ s (Nat.lt_succ_self _)

/-- A statement about the decomposition of every string follows from its truth for the
empty string and its passage from the rest of a string to the string. -/
theorem parts_of_induction (P : List Nat → Prop) (h0 : P [])
    (hstep : ∀ c rest, P (rest.dropWhile (same_class c)) → P (c :: rest)) (s : List Nat) :
    P s := by
  suffices H : ∀ n (s : List Nat), s.length ≤ n → P s from H _ s (le_refl _)
  intro n
  induction n with
  | zero =>
    intro s h
    have : s = [] := List.length_eq_zero.1 (by omega)
    subst this; exact h0
  | succ n ih =>
    intro s h
    cases s with
    | nil => exact h0
    | cons c rest => exact hstep c rest (ih _ (dropWhile_length_lt c rest h))

theorem parts_of_join (s : List Nat) : ((parts_of s).map part_text).flatten = s := by
  induction s using parts_of_induction with
  | h0 => simp [parts_of_nil, part_text]
  | hstep c rest ih =>
    rw [parts_of_cons, List.map_cons, List.flatten_cons, ih]
    simp [part_text, List.takeWhile_append_dropWhile]

theorem parts_of_length (s : List Nat) :
    ∀ p ∈ parts_of s, p.length = (part_text p).length := by
  induction s using parts_of_induction with
  | h0 => simp [parts_of_nil, part_text]
  | hstep c rest ih =>
    intro p hp
    rw [parts_of_cons] at hp
    rcases List.mem_cons.1 hp with rfl | hp
    · simp [part_text]
    · exact ih p hp

theorem parts_of_head_type (s : List Nat) :
    ∃ p ps, parts_of s = p :: ps ∧
      p.type = (match s with | [] => PART_TYPE_EMPTY | c :: _ => part_type c) := by
  cases s with
  | nil => exact ⟨_, _, parts_of_nil, rfl⟩
  | cons c rest => exact ⟨_, _, parts_of_cons c rest, rfl⟩

theorem dropWhile_head_class (c : Nat) (rest : List Nat) :
    ∀ y ∈ (rest.dropWhile (same_class c)).head?, part_type y ≠ part_type c := by
  intro y hy
  have h : (rest.dropWhile (same_class c)).head? = some y := hy
  have := List.head?_dropWhile_not (same_class c) rest
  rw [h] at this
  simp only [Option.some.injEq] at this
  intro e
  have h2 := (same_class_iff c y).2 e
  simp_all

theorem parts_of_alternate (s : List Nat) :
    (parts_of s).Chain' (fun p q => p.type ≠ q.type) := by
  induction s using parts_of_induction with
  | h0 => simp [parts_of_nil]
  | hstep c rest ih =>
    rw [parts_of_cons]
    obtain ⟨p, ps, hps, hty⟩ := parts_of_head_type (rest.dropWhile (same_class c))
    rw [hps] at ih ⊢
    refine List.Chain'.cons ?_ ih
    show part_type c ≠ p.type
    rw [hty]
    cases hd : rest.dropWhile (same_class c) with
    | nil => exact part_type_ne_empty c
    | cons y ys =>
      have := dropWhile_head_class c rest y (by rw [hd]; rfl)
      exact fun e => this e.symm

theorem parts_of_class (s : List Nat) :
    ∀ p ∈ parts_of s, p.type ≠ PART_TYPE_EMPTY →
      ∃ d, p.data = some d ∧ d ≠ [] ∧ ∀ c ∈ d, part_type c = p.type := by
  induction s using parts_of_induction with
  | h0 => simp [parts_of_nil]
  | hstep c rest ih =>
    intro p hp hne
    rw [parts_of_cons] at hp
    rcases List.mem_cons.1 hp with rfl | hp
    · refine ⟨_, rfl, by simp, ?_⟩
      intro x hx
      rcases List.mem_cons.1 hx with rfl | hx
      · rfl
      · exact (same_class_iff c x).1 (List.mem_takeWhile_imp hx)
    · exact ih p hp hne

/-! ## The splitter, iteration counts, bounds and equal parts -/

theorem last_index_loop_absent (str : List Nat) (c : Nat) (hc : c ∉ str) (n : Nat)
    (hn : n ≤ str.length) : tatap_string_last_index_of_char_loop str c n = -1 := by
  induction n with
  | zero => rfl
  | succ i ih =>
    have hi : i < str.length := by omega
    have hget : str.getD i 0 = str[i] := by
      rw [List.getD_eq_getElem?_getD, List.getElem?_eq_getElem hi]; rfl
    have hne : str[i] ≠ c := fun h => hc (h ▸ List.getElem_mem hi)
    rw [tatap_string_last_index_of_char_loop, hget, if_neg hne]
    exact ih (by omega)

theorem last_index_absent (str : List Nat) (c : Nat) (hc : c ∉ str) :
    tatap_string_last_index_of_char str c = -1 :=
  last_index_loop_absent str c hc _ (le_refl _)

theorem filename_stem_split (s e : List Nat) (h : 46 ∉ e) :
    filename_stem (s ++ 46 :: e) = s := by
  simp [filename_stem, last_index_split s e 46 h, g_strndup]

theorem filename_ext_split (s e : List Nat) (h : 46 ∉ e) :
    filename_ext (s ++ 46 :: e) = e := by
  have : ((s.length : Int) + 1).toNat = s.length + 1 := by omega
  simp [filename_ext, last_index_split s e 46 h, this]

theorem parts_of_shape (s : List Nat) :
    ∃ init, parts_of s = init ++ [{ type := PART_TYPE_EMPTY, length := 0, data := none }] ∧
      (∀ p ∈ init, p.type ≠ PART_TYPE_EMPTY) ∧ init.length ≤ s.length := by
  induction s using parts_of_induction with
  | h0 => exact ⟨[], by rw [parts_of_nil]; rfl, by simp, by simp⟩
  | hstep c rest ih =>
    obtain ⟨init, h1, h2, h3⟩ := ih
    refine ⟨_ :: init, by rw [parts_of_cons, h1]; rfl, ?_, ?_⟩
    · intro p hp
      rcases List.mem_cons.1 hp with rfl | hp
      · exact part_type_ne_empty c
      · exact h2 p hp
    · have := (List.dropWhile_sublist (same_class c) (l := rest)).length_le
      simp only [List.length_cons]; omega

theorem IsCStr.isBytes {s : List Nat} (h : IsCStr s) : IsBytes s :=
  fun c hc => (h c hc).2

theorem isBytes_cons {c : Nat} {s : List Nat} : IsBytes (c :: s) ↔ c < 256 ∧ IsBytes s := by
  simp [IsBytes]

theorem isBytes_mono {a b : List Nat} (h : a ⊆ b) (hb : IsBytes b) : IsBytes a :=
  fun c hc => hb c (h hc)

theorem head_byte_lt {s : List Nat} (h : IsBytes s) : head_byte s < 256 := by
  cases s with
  | nil => simp [head_byte]
  | cons c t => exact (isBytes_cons.1 h).1

theorem ascii_tolower_lt {c : Nat} (h : c < 256) : ascii_tolower c < 256 := by
  unfold ascii_tolower; split <;> omega

theorem strncasecmp_bound {u v : List Nat} (hu : IsBytes u) (hv : IsBytes v) (n : Nat) :
    -255 ≤ g_ascii_strncasecmp u v n ∧ g_ascii_strncasecmp u v n ≤ 255 := by
  induction u generalizing v n with
  | nil =>
    have := head_byte_lt hv
    rw [strncasecmp_nil_left]; split <;> omega
  | cons c s ih =>
    have hc := (isBytes_cons.1 hu).1
    cases v with
    | nil =>
      rw [strncasecmp_nil_right]
      simp only [head_byte_cons]; split <;> omega
    | cons d t =>
      have hd := (isBytes_cons.1 hv).1
      cases n with
      | zero => rw [strncasecmp_zero]; omega
      | succ n =>
        rw [strncasecmp_cons]
        have := ascii_tolower_lt hc
        have := ascii_tolower_lt hd
        split
        · omega
        · exact ih (isBytes_cons.1 hu).2 (isBytes_cons.1 hv).2 n

theorem strcmp_bound {u v : List Nat} (hu : IsBytes u) (hv : IsBytes v) :
    -255 ≤ strcmp u v ∧ strcmp u v ≤ 255 := by
  induction u generalizing v with
  | nil =>
    have := head_byte_lt hv
    cases v <;> simp only [strcmp, head_byte, List.headD_nil, List.headD_cons] <;>
      simp only [head_byte, List.headD_cons] at this <;> omega
  | cons c s ih =>
    have hc := (isBytes_cons.1 hu).1
    cases v with
    | nil => simp only [strcmp, head_byte, List.headD_nil, List.headD_cons]; omega
    | cons d t =>
      have hd := (isBytes_cons.1 hv).1
      simp only [strcmp]
      split
      · exact ih (isBytes_cons.1 hu).2 (isBytes_cons.1 hv).2
      · omega

theorem wrap_int_bound (z : Int) : -2147483648 ≤ wrap_int z ∧ wrap_int z ≤ 2147483647 := by
  unfold wrap_int; omega

theorem run_compare_bound {u v : List Nat} (hu : IsBytes u) (hv : IsBytes v) :
    -2147483648 ≤ run_compare u v ∧ run_compare u v ≤ 2147483647 := by
  unfold run_compare
  split
  · exact wrap_int_bound _
  · have := strncasecmp_bound hu hv NAME_MAX
    omega

theorem stem_compare_bound (a b : List Nat) (ha : IsBytes a) (hb : IsBytes b) :
    -2147483648 ≤ stem_compare a b ∧ stem_compare a b ≤ 2147483647 := by
  suffices H : ∀ n (a b : List Nat), a.length ≤ n → IsBytes a → IsBytes b →
      -2147483648 ≤ stem_compare a b ∧ stem_compare a b ≤ 2147483647 from
    H _ a b (le_refl _) ha hb
  intro n
  induction n with
  | zero =>
    intro a b h _ _
    have : a = [] := List.length_eq_zero.1 (by omega)
    subst this
    cases b <;> simp [stem_compare_nil_nil, stem_compare_nil_cons]
  | succ n ih =>
    intro a b h ha hb
    cases a with
    | nil => cases b <;> simp [stem_compare_nil_nil, stem_compare_nil_cons]
    | cons ca ra =>
      cases b with
      | nil => simp [stem_compare_cons_nil]
      | cons cb rb =>
        rw [stem_compare_cons_cons]
        split
        · exact ih _ _ (dropWhile_length_lt ca ra h)
            (isBytes_mono ((List.dropWhile_subset _).trans (List.subset_cons_self _ _)) ha)
            (isBytes_mono ((List.dropWhile_subset _).trans (List.subset_cons_self _ _)) hb)
        · exact run_compare_bound
            (isBytes_mono (run_initial ca ra).subset ha)
            (isBytes_mono (run_initial cb rb).subset hb)

theorem parts_of_length_pos (s : List Nat) : 0 < (parts_of s).length := by
  cases s with
  | nil => rw [parts_of_nil]; simp
  | cons c rest => rw [parts_of_cons]; simp

/-- The loop needs no more iterations than the shorter of the two stems has parts, the
`Empty` part counted. -/
theorem compare_loop_eq_parts (a b : List Nat) :
    tatap_filename_compare_loop (min (parts_of a).length (parts_of b).length)
      (some a) (some b) = some (stem_compare a b) := by
  suffices H : ∀ n (a b : List Nat), a.length ≤ n →
      tatap_filename_compare_loop (min (parts_of a).length (parts_of b).length)
        (some a) (some b) = some (stem_compare a b) from H _ a b (le_refl _)
  intro n
  induction n with
  | zero =>
    intro a b h
    have : a = [] := List.length_eq_zero.1 (by omega)
    subst this
    have hb := parts_of_length_pos b
    have hm : min (parts_of ([] : List Nat)).length (parts_of b).length = 0 + 1 := by
      rw [parts_of_nil]; simp; omega
    rw [hm]
    exact compare_loop_eq 1 [] b (by simp)
  | succ n ih =>
    intro a b h
    cases a with
    | nil =>
      have hb := parts_of_length_pos b
      have hm : min (parts_of ([] : List Nat)).length (parts_of b).length = 0 + 1 := by
        rw [parts_of_nil]; simp; omega
      rw [hm]
      exact compare_loop_eq 1 [] b (by simp)
    | cons ca ra =>
      cases b with
      | nil =>
        have hm : min (parts_of (ca :: ra)).length (parts_of ([] : List Nat)).length
            = 0 + 1 := by
          have := parts_of_length_pos (ca :: ra)
          rw [parts_of_nil]; simp; omega
        rw [hm, stem_compare_cons_nil]
        simp [tatap_filename_compare_loop, next_part_nil, next_part_cons,
          tatap_filename_compare_parts, part_type_ne_empty]
      | cons cb rb =>
        have hm : min (parts_of (ca :: ra)).length (parts_of (cb :: rb)).length =
            min (parts_of (ra.dropWhile (same_class ca))).length
              (parts_of (rb.dropWhile (same_class cb))).length + 1 := by
          rw [parts_of_cons, parts_of_cons]
          simp only [List.length_cons]
          omega
        have ih' := ih _ (rb.dropWhile (same_class cb)) (dropWhile_length_lt ca ra h)
        rw [hm, stem_compare_cons_cons]
        simp only [tatap_filename_compare_loop, next_part_cons, tatap_filename_compare_parts,
          part_type_ne_empty, if_false, run_compare, head_byte, List.headD_cons]
        by_cases hd : part_type ca = PART_TYPE_DIGIT ∧ part_type cb = PART_TYPE_DIGIT
        · simp only [hd, and_self, if_true, and_true]
          split
          · exact ih'
          · rfl
        · simp only [hd, if_false, and_true]
          split
          · exact ih'
          · rfl

theorem next_part_null_iff (str : List Nat) :
    (tatap_string_get_next_part str).1 = none ↔
      (tatap_string_get_next_part str).2.type = PART_TYPE_EMPTY := by
  cases str with
  | nil => simp [next_part_nil]
  | cons c rest => simp [next_part_cons, part_type_ne_empty]

theorem compare_parts_empty (pa pb : StrPart)
    (h : pa.type = PART_TYPE_EMPTY ∨ pb.type = PART_TYPE_EMPTY) :
    ∃ r, tatap_filename_compare_parts pa pb = some (r, 1) := by
  unfold tatap_filename_compare_parts
  by_cases ha : pa.type = PART_TYPE_EMPTY
  · by_cases hb : pb.type = PART_TYPE_EMPTY
    · exact ⟨0, by simp [ha, hb]⟩
    · exact ⟨-1, by simp [ha, hb]⟩
  · have hb : pb.type = PART_TYPE_EMPTY := h.resolve_left ha
    exact ⟨1, by simp [ha, hb]⟩

theorem wrap_int_sub_comm {a b : Int} (h : wrap_int (a - b) = 0) : wrap_int (b - a) = 0 := by
  unfold wrap_int at h ⊢; omega

theorem run_compare_zero_symm {u v : List Nat} (h : run_compare u v = 0) :
    run_compare v u = 0 := by
  unfold run_compare at h ⊢
  by_cases hd : part_type (head_byte u) = PART_TYPE_DIGIT ∧
      part_type (head_byte v) = PART_TYPE_DIGIT
  · rw [if_pos hd] at h
    rw [if_pos ⟨hd.2, hd.1⟩]
    exact wrap_int_sub_comm h
  · rw [if_neg hd] at h
    rw [if_neg (fun h' => hd ⟨h'.2, h'.1⟩), strncasecmp_antisymm, h]; rfl

theorem stem_compare_zero_symm (a b : List Nat) (h : stem_compare a b = 0) :
    stem_compare b a = 0 := by
  suffices H : ∀ n (a b : List Nat), a.length ≤ n → stem_compare a b = 0 →
      stem_compare b a = 0 from H _ a b (le_refl _) h
  intro n
  induction n with
  | zero =>
    intro a b hl h
    have : a = [] := List.length_eq_zero.1 (by omega)
    subst this
    cases b with
    | nil => exact h
    | cons c r => rw [stem_compare_nil_cons] at h; omega
  | succ n ih =>
    intro a b hl h
    cases a with
    | nil =>
      cases b with
      | nil => exact h
      | cons c r => rw [stem_compare_nil_cons] at h; omega
    | cons ca ra =>
      cases b with
      | nil => rw [stem_compare_cons_nil] at h; omega
      | cons cb rb =>
        rw [stem_compare_cons_cons] at h
        rw [stem_compare_cons_cons]
        by_cases hz : run_compare (ca :: ra.takeWhile (same_class ca))
            (cb :: rb.takeWhile (same_class cb)) = 0
        · rw [if_pos hz] at h
          rw [if_pos (run_compare_zero_symm hz)]
          exact ih _ _ (dropWhile_length_lt ca ra hl) h
        · rw [if_neg hz] at h; exact absurd h hz

/-- Two prefixes that compare equal part by part and end at part boundaries do not
count. -/
theorem stem_compare_append_of_eq (p1 p2 u v : List Nat) (h : stem_compare p1 p2 = 0)
    (b1 : ClassBoundary p1 u) (b2 : ClassBoundary p2 v) :
    stem_compare (p1 ++ u) (p2 ++ v) = stem_compare u v := by
  suffices H : ∀ n (p1 p2 : List Nat), p1.length ≤ n → stem_compare p1 p2 = 0 →
      ClassBoundary p1 u → ClassBoundary p2 v →
      stem_compare (p1 ++ u) (p2 ++ v) = stem_compare u v from H _ p1 p2 (le_refl _) h b1 b2
  intro n
  induction n with
  | zero =>
    intro p1 p2 hl h _ _
    have : p1 = [] := List.length_eq_zero.1 (by omega)
    subst this
    cases p2 with
    | nil => rfl
    | cons c r => rw [stem_compare_nil_cons] at h; omega
  | succ n ih =>
    intro p1 p2 hl h b1 b2
    cases p1 with
    | nil =>
      cases p2 with
      | nil => rfl
      | cons c r => rw [stem_compare_nil_cons] at h; omega
    | cons ca ra =>
      cases p2 with
      | nil => rw [stem_compare_cons_nil] at h; omega
      | cons cb rb =>
        obtain ⟨a1, a2, a3⟩ := run_append_boundary ca u ra ca rfl b1
        obtain ⟨c1, c2, c3⟩ := run_append_boundary cb v rb cb rfl b2
        rw [stem_compare_cons_cons] at h
        by_cases hz : run_compare (ca :: ra.takeWhile (same_class ca))
            (cb :: rb.takeWhile (same_class cb)) = 0
        · rw [if_pos hz] at h
          rw [List.cons_append, List.cons_append, stem_compare_cons_cons, a1, c1, a2, c2,
            if_pos hz]
          exact ih _ _ (dropWhile_length_lt ca ra hl) h a3 c3
        · rw [if_neg hz] at h; exact absurd h hz

theorem stem_compare_of_loop {p1 p2 : List Nat} {r : Int}
    (h : tatap_filename_compare_loop (strlen p1 + 1) (some p1) (some p2) = some r) :
    stem_compare p1 p2 = r := by
  have e := compare_loop_eq (strlen p1 + 1) p1 p2 (Nat.lt_succ_self _)
  rw [e] at h
  exact Option.some.inj h

theorem atoi_in_range {d : List Nat} (g : IsDigits d) (r : digits_value d ≤ 2147483647) :
    atoi d = (digits_value d : Int) := by
  rw [atoi_of_digits g, min_eq_left (by omega)]
  exact wrap_int_of_range (by omega) (by omega)

theorem strncasecmp_of_key (n : Nat) (u v : List Nat) (hu : n ≤ u.length) (hv : n ≤ v.length)
    (h : casefold_key n u = casefold_key n v) : g_ascii_strncasecmp u v n = 0 := by
  induction n generalizing u v with
  | zero => exact strncasecmp_zero _ _
  | succ n ih =>
    cases u with
    | nil => simp at hu
    | cons c s =>
      cases v with
      | nil => simp at hv
      | cons d t =>
        rw [casefold_key_cons, casefold_key_cons] at h
        simp only [List.cons.injEq] at h
        rw [strncasecmp_cons, if_neg (by simp [h.1])]
        exact ih s t (by simpa using hu) (by simpa using hv) h.2

theorem nondigit_class {r : List Nat} (h : ∀ c ∈ r, g_ascii_isdigit c = false) :
    ∀ x ∈ r, part_type x = PART_TYPE_NONDIGIT := by
  intro x hx
  unfold part_type
  rw [h x hx]; rfl

theorem casefold_key_eq (n : Nat) (s : List Nat) :
    casefold_key n s = (s.take n).map ascii_tolower := rfl

/-- On well-formed texts the comparison of two parts is `0` exactly for equal parts. -/
theorem run_compare_eq_zero_iff {u v : List Nat} (hu : RunOK u) (hv : RunOK v) :
    run_compare u v = 0 ↔
      part_type (head_byte u) = part_type (head_byte v) ∧
        if part_type (head_byte u) = PART_TYPE_DIGIT then digits_value u = digits_value v
        else (u.take NAME_MAX).map ascii_tolower = (v.take NAME_MAX).map ascii_tolower := by
  by_cases hcls : part_type (head_byte u) = part_type (head_byte v)
  · by_cases hd : part_type (head_byte u) = PART_TYPE_DIGIT
    · have hd' : part_type (head_byte v) = PART_TYPE_DIGIT := hcls ▸ hd
      rw [run_compare_digits hu hv hd hd', if_pos hd]
      constructor
      · intro h; exact ⟨hcls, by omega⟩
      · intro h; have := h.2; omega
    · rw [run_compare_text (fun h => hd h.1), if_neg hd,
        strncasecmp_eq_zero hu.2.1 hv.2.1, casefold_key_eq, casefold_key_eq]
      constructor
      · intro h; exact ⟨hcls, h⟩
      · intro h; exact h.2
  · have m := run_compare_mixed hu.1 hv.1 hcls
    constructor
    · intro h
      rw [m.1] at h
      exact absurd (by omega) m.2
    · intro h; exact absurd h.1 hcls

theorem part_equal_empty :
    part_equal { type := PART_TYPE_EMPTY, length := 0, data := none }
      { type := PART_TYPE_EMPTY, length := 0, data := none } := by
  refine ⟨rfl, ?_⟩
  rw [if_neg (by decide)]

/-- On well-formed stems the loop ends with `0` exactly when the two decompositions
match part by part. -/
theorem stem_compare_eq_zero_iff (a b : List Nat) (ha : GoodStem a) (hb : GoodStem b) :
    stem_compare a b = 0 ↔ List.Forall₂ part_equal (parts_of a) (parts_of b) := by
  suffices H : ∀ n (a b : List Nat), a.length ≤ n → GoodStem a → GoodStem b →
      (stem_compare a b = 0 ↔ List.Forall₂ part_equal (parts_of a) (parts_of b)) from
    H _ a b (le_refl _) ha hb
  intro n
  have base : ∀ b : List Nat,
      (stem_compare [] b = 0 ↔ List.Forall₂ part_equal (parts_of []) (parts_of b)) := by
    intro b
    cases b with
    | nil =>
      rw [stem_compare_nil_nil, parts_of_nil]
      exact ⟨fun _ => List.Forall₂.cons part_equal_empty List.Forall₂.nil, fun _ => rfl⟩
    | cons c r =>
      rw [stem_compare_nil_cons, parts_of_nil, parts_of_cons]
      constructor
      · intro h; omega
      · intro h
        cases h with
        | cons h1 _ => exact absurd h1.1.symm (part_type_ne_empty c)
  induction n with
  | zero =>
    intro a b hl _ _
    have : a = [] := List.length_eq_zero.1 (by omega)
    subst this
    exact base b
  | succ n ih =>
    intro a b hl ha hb
    cases a with
    | nil => exact base b
    | cons ca ra =>
      cases b with
      | nil =>
        rw [stem_compare_cons_nil, parts_of_nil, parts_of_cons]
        constructor
        · intro h; omega
        · intro h
          cases h with
          | cons h1 _ => exact absurd h1.1 (part_type_ne_empty ca)
      | cons cb rb =>
        obtain ⟨ua, ga⟩ := goodStem_step ca ra ha
        obtain ⟨ub, gb⟩ := goodStem_step cb rb hb
        have hrun := run_compare_eq_zero_iff ua ub
        simp only [head_byte_cons] at hrun
        have ih' := ih _ (rb.dropWhile (same_class cb)) (dropWhile_length_lt ca ra hl) ga gb
        rw [stem_compare_cons_cons, parts_of_cons, parts_of_cons, List.forall₂_cons]
        have hpe : part_equal
            { type := part_type ca, length := (ra.takeWhile (same_class ca)).length + 1,
              data := some (ca :: ra.takeWhile (same_class ca)) }
            { type := part_type cb, length := (rb.takeWhile (same_class cb)).length + 1,
              data := some (cb :: rb.takeWhile (same_class cb)) } ↔
            run_compare (ca :: ra.takeWhile (same_class ca))
              (cb :: rb.takeWhile (same_class cb)) = 0 := by
          rw [hrun]; rfl
        rw [hpe, ← ih']
        by_cases hz : run_compare (ca :: ra.takeWhile (same_class ca))
            (cb :: rb.takeWhile (same_class cb)) = 0
        · rw [if_pos hz]; exact ⟨fun h => ⟨hz, h⟩, fun h => h.2⟩
        · rw [if_neg hz]; exact ⟨fun h => absurd h hz, fun h => absurd h.1 hz⟩

theorem compare_parts_cons (ca cb : Nat) (ua ub : List Nat) (la lb : Nat) :
    tatap_filename_compare_parts
        { type := part_type ca, length := la, data := some (ca :: ua) }
        { type := part_type cb, length := lb, data := some (cb :: ub) } =
      some (run_compare (ca :: ua) (cb :: ub), 0) := by
  simp only [tatap_filename_compare_parts, part_type_ne_empty, if_false, run_compare,
    head_byte, List.headD_cons]
  split <;> rfl

/-- When the loop on two well-formed stems ends with a result other than `0`, the two
decompositions agree on a common number of leading parts, and the result is the one the
loop body gives for the pair of parts that follows. -/
theorem stem_compare_first_unequal (a b : List Nat) (ha : GoodStem a) (hb : GoodStem b)
    (hne : stem_compare a b ≠ 0) :
    ∃ ca p ta cb q tb f, parts_of a = ca ++ p :: ta ∧ parts_of b = cb ++ q :: tb ∧
      List.Forall₂ part_equal ca cb ∧ ¬ part_equal p q ∧
      tatap_filename_compare_parts p q = some (stem_compare a b, f) := by
  suffices H : ∀ n (a b : List Nat), a.length ≤ n → GoodStem a → GoodStem b →
      stem_compare a b ≠ 0 →
      ∃ ca p ta cb q tb f, parts_of a = ca ++ p :: ta ∧ parts_of b = cb ++ q :: tb ∧
        List.Forall₂ part_equal ca cb ∧ ¬ part_equal p q ∧
        tatap_filename_compare_parts p q = some (stem_compare a b, f) from
    H _ a b (le_refl _) ha hb hne
  intro n
  have base : ∀ b : List Nat, stem_compare [] b ≠ 0 →
      ∃ ca p ta cb q tb f, parts_of [] = ca ++ p :: ta ∧ parts_of b = cb ++ q :: tb ∧
        List.Forall₂ part_equal ca cb ∧ ¬ part_equal p q ∧
        tatap_filename_compare_parts p q = some (stem_compare [] b, f) := by
    intro b hne
    cases b with
    | nil => exact absurd stem_compare_nil_nil hne
    | cons c r =>
      refine ⟨[], _, [], [], _, _, 1, parts_of_nil, parts_of_cons c r, List.Forall₂.nil,
        fun h => part_type_ne_empty c h.1.symm, ?_⟩
      rw [stem_compare_nil_cons]
      simp [tatap_filename_compare_parts, part_type_ne_empty]
  induction n with
  | zero =>
    intro a b hl _ _ hne
    have : a = [] := List.length_eq_zero.1 (by omega)
    subst this
    exact base b hne
  | succ n ih =>
    intro a b hl ha hb hne
    cases a with
    | nil => exact base b hne
    | cons ca ra =>
      cases b with
      | nil =>
        refine ⟨[], _, _, [], _, [], 1, parts_of_cons ca ra, parts_of_nil,
          List.Forall₂.nil, fun h => part_type_ne_empty ca h.1, ?_⟩
        rw [stem_compare_cons_nil]
        simp [tatap_filename_compare_parts, part_type_ne_empty]
      | cons cb rb =>
        obtain ⟨ua, ga⟩ := goodStem_step ca ra ha
        obtain ⟨ub, gb⟩ := goodStem_step cb rb hb
        have hrun := run_compare_eq_zero_iff ua ub
        simp only [head_byte_cons] at hrun
        rw [stem_compare_cons_cons] at hne ⊢
        by_cases hz : run_compare (ca :: ra.takeWhile (same_class ca))
            (cb :: rb.takeWhile (same_class cb)) = 0
        · rw [if_pos hz] at hne ⊢
          obtain ⟨xa, p, ta, xb, q, tb, f, e1, e2, hf, hq, hc⟩ :=
            ih _ (rb.dropWhile (same_class cb)) (dropWhile_length_lt ca ra hl) ga gb hne
          have hpe : part_equal
              { type := part_type ca, length := (ra.takeWhile (same_class ca)).length + 1,
                data := some (ca :: ra.takeWhile (same_class ca)) }
              { type := part_type cb, length := (rb.takeWhile (same_class cb)).length + 1,
                data := some (cb :: rb.takeWhile (same_class cb)) } := hrun.1 hz
          refine ⟨_ :: xa, p, ta, _ :: xb, q, tb, f, ?_, ?_, List.Forall₂.cons hpe hf, hq, hc⟩
          · rw [parts_of_cons, e1]; rfl
          · rw [parts_of_cons, e2]; rfl
        · rw [if_neg hz]
          exact ⟨[], _, _, [], _, _, 0, parts_of_cons ca ra, parts_of_cons cb rb,
            List.Forall₂.nil, fun h => hz (hrun.2 h), compare_parts_cons _ _ _ _ _ _⟩

/-! ## The claims -/

/-- C1 (sign antisymmetry).  For all filenames `x` and `y` (C strings with at least one
`'.'`, every digit run within the `int` range) both `tatap_filename_compare x y` and
`tatap_filename_compare y x` return, and the sign of the first result is the opposite
of the sign of the second. -/
theorem tatap_filename_compare_sign_antisymm (x y : List Nat)
    (hx : IsCStr x) (hy : IsCStr y) (dx : 46 ∈ x) (dy : 46 ∈ y)
    (rx : DigitRunsInRange x) (ry : DigitRunsInRange y) :
    ∃ r s, tatap_filename_compare x y = some r ∧ tatap_filename_compare y x = some s ∧
      Int.sign r = - Int.sign s := by
  obtain ⟨s1, e1, ex, n1⟩ := exists_last_split dx
  obtain ⟨s2, e2, ey, n2⟩ := exists_last_split dy
  obtain ⟨g1, _⟩ := goodStem_of_split ex hx rx
  obtain ⟨g2, _⟩ := goodStem_of_split ey hy ry
  subst ex ey
  refine ⟨_, _, compare_split s1 e1 s2 e2 n1 n2, compare_split s2 e2 s1 e1 n2 n1, ?_⟩
  rw [stem_compare_antisymm s1 s2 g1 g2, strcmp_antisymm e1 e2]
  by_cases hz : stem_compare s1 s2 = 0
  · simp [hz]
  · simp [hz]

/-- C1, at the names `a2.txt` and `a10.txt`. -/
theorem tatap_filename_compare_sign_antisymm_witness :
    ∃ r s, tatap_filename_compare (ascii "a2.txt") (ascii "a10.txt") = some r ∧
      tatap_filename_compare (ascii "a10.txt") (ascii "a2.txt") = some s ∧
      Int.sign r = - Int.sign s :=
  tatap_filename_compare_sign_antisymm (ascii "a2.txt") (ascii "a10.txt")
    (by decide) (by decide) (by decide) (by decide)
    (digitRunsInRange_of_short (by decide)) (digitRunsInRange_of_short (by decide))

/-- C2 (transitivity).  For all filenames `x`, `y`, `z` (C strings with at least one
`'.'`, every digit run within the `int` range) the three comparisons return, and if
`compare x y ≤ 0` and `compare y z ≤ 0` then `compare x z ≤ 0`. -/
theorem tatap_filename_compare_trans (x y z : List Nat)
    (hx : IsCStr x) (hy : IsCStr y) (hz : IsCStr z)
    (dx : 46 ∈ x) (dy : 46 ∈ y) (dz : 46 ∈ z)
    (rx : DigitRunsInRange x) (ry : DigitRunsInRange y) (rz : DigitRunsInRange z) :
    ∃ rxy ryz rxz, tatap_filename_compare x y = some rxy ∧
      tatap_filename_compare y z = some ryz ∧ tatap_filename_compare x z = some rxz ∧
      (rxy ≤ 0 → ryz ≤ 0 → rxz ≤ 0) := by
  obtain ⟨s1, e1, ex, n1⟩ := exists_last_split dx
  obtain ⟨s2, e2, ey, n2⟩ := exists_last_split dy
  obtain ⟨s3, e3, ez, n3⟩ := exists_last_split dz
  obtain ⟨g1, f1⟩ := goodStem_of_split ex hx rx
  obtain ⟨g2, f2⟩ := goodStem_of_split ey hy ry
  obtain ⟨g3, f3⟩ := goodStem_of_split ez hz rz
  subst ex ey ez
  refine ⟨_, _, _, compare_split s1 e1 s2 e2 n1 n2, compare_split s2 e2 s3 e3 n2 n3,
    compare_split s1 e1 s3 e3 n1 n3, ?_⟩
  intro h1 h2
  have p1 : stem_compare s1 s2 ≤ 0 := by
    split at h1
    · omega
    · exact h1
  have p2 : stem_compare s2 s3 ≤ 0 := by
    split at h2
    · omega
    · exact h2
  have p3 := stem_compare_trans s1 s2 s3 g1 g2 g3 p1 p2
  by_cases hz : stem_compare s1 s3 = 0
  · obtain ⟨z1, z2⟩ := stem_compare_squeeze g1 g2 g3 p1 p2 hz
    rw [if_pos z1] at h1
    rw [if_pos z2] at h2
    rw [if_pos hz]
    exact strcmp_trans f1 f2 f3 h1 h2
  · rw [if_neg hz]; exact p3

/-- C2, at the names `a2.txt`, `a10.txt` and `b1.txt`. -/
theorem tatap_filename_compare_trans_witness :
    ∃ rxy ryz rxz, tatap_filename_compare (ascii "a2.txt") (ascii "a10.txt") = some rxy ∧
      tatap_filename_compare (ascii "a10.txt") (ascii "b1.txt") = some ryz ∧
      tatap_filename_compare (ascii "a2.txt") (ascii "b1.txt") = some rxz ∧
      (rxy ≤ 0 → ryz ≤ 0 → rxz ≤ 0) :=
  tatap_filename_compare_trans (ascii "a2.txt") (ascii "a10.txt") (ascii "b1.txt")
    (by decide) (by decide) (by decide) (by decide) (by decide) (by decide)
    (digitRunsInRange_of_short (by decide)) (digitRunsInRange_of_short (by decide))
    (digitRunsInRange_of_short (by decide))

/-- C3 (reflexivity).  For every filename `x` with at least one `'.'`,
`tatap_filename_compare x x` returns `0`. -/
theorem tatap_filename_compare_refl (x : List Nat) (dx : 46 ∈ x) :
    tatap_filename_compare x x = some 0 := by
  obtain ⟨s, e, ex, n⟩ := exists_last_split dx
  subst ex
  rw [compare_split s e s e n n, stem_compare_self, strcmp_self]
  rfl

/-- C3, at the name `file007.txt`. -/
theorem tatap_filename_compare_refl_witness :
    46 ∈ ascii "file007.txt" ∧
      tatap_filename_compare (ascii "file007.txt") (ascii "file007.txt") = some 0 :=
  ⟨by decide, tatap_filename_compare_refl (ascii "file007.txt") (by decide)⟩

/-- C4 (numeric ordering).  For a prefix `p` that is empty or ends in a non-digit, two
non-empty digit strings `d1`, `d2` with `value d1 < value d2` within the `int` range, and
extensions `e1`, `e2` without a `'.'`, the comparison of `p ++ d1 ++ "." ++ e1` with
`p ++ d2 ++ "." ++ e2` returns a negative number. -/
theorem tatap_filename_compare_numeric (p d1 d2 e1 e2 : List Nat)
    (hp : ∀ c ∈ p.getLast?, g_ascii_isdigit c = false)
    (n1 : d1 ≠ []) (n2 : d2 ≠ []) (g1 : IsDigits d1) (g2 : IsDigits d2)
    (hlt : digits_value d1 < digits_value d2) (hr : digits_value d2 ≤ 2147483647)
    (x1 : 46 ∉ e1) (x2 : 46 ∉ e2) :
    ∃ r, tatap_filename_compare (p ++ d1 ++ 46 :: e1) (p ++ d2 ++ 46 :: e2) = some r ∧
      r < 0 := by
  have ok1 : RunOK d1 := ⟨n1, isDigits_nulFree g1, fun _ => ⟨g1, by omega⟩⟩
  have ok2 : RunOK d2 := ⟨n2, isDigits_nulFree g2, fun _ => ⟨g2, hr⟩⟩
  have hrun : run_compare d1 d2 = (digits_value d1 : Int) - (digits_value d2 : Int) :=
    run_compare_digits ok1 ok2 (isDigits_head g1 n1) (isDigits_head g2 n2)
  have hne : ¬ run_compare d1 d2 = 0 := by rw [hrun]; omega
  have hst : stem_compare (p ++ d1) (p ++ d2) = run_compare d1 d2 := by
    rw [stem_compare_append p d1 d2 (isDigits_boundary_left hp g1)
      (isDigits_boundary_left hp g2)]
    have := stem_compare_runs d1 d2 [] [] n1 n2
      (fun x hx => by rw [isDigits_class g1 x hx, isDigits_head g1 n1])
      (fun x hx => by rw [isDigits_class g2 x hx, isDigits_head g2 n2])
      (classBoundary_nil_right _) (classBoundary_nil_right _)
    rw [List.append_nil, List.append_nil, if_neg hne] at this
    exact this
  refine ⟨_, compare_split (p ++ d1) e1 (p ++ d2) e2 x1 x2, ?_⟩
  rw [hst, if_neg hne, hrun]; omega

/-- C4, at the names `file2.txt` and `file10.txt`. -/
theorem tatap_filename_compare_numeric_witness :
    ∃ r, tatap_filename_compare (ascii "file2.txt") (ascii "file10.txt") = some r ∧ r < 0 :=
  tatap_filename_compare_numeric (ascii "file") (ascii "2") (ascii "10") (ascii "txt")
    (ascii "txt") (by decide) (by decide) (by decide) (by decide) (by decide) (by decide)
    (by decide) (by decide) (by decide)

/-- C5 (leading zeros).  For a prefix `p` that is empty or ends in a non-digit, a
non-empty digit string `d`, a number `k` of zeros, a suffix `s` that is empty or starts
with a non-digit and an extension `e` without a `'.'`, the comparison of
`p ++ "0"^k ++ d ++ s ++ "." ++ e` with `p ++ d ++ s ++ "." ++ e` returns `0`. -/
theorem tatap_filename_compare_leading_zeros (p d s e : List Nat) (k : Nat)
    (hp : ∀ c ∈ p.getLast?, g_ascii_isdigit c = false)
    (nd : d ≠ []) (gd : IsDigits d)
    (hs : ∀ c ∈ s.head?, g_ascii_isdigit c = false) (he : 46 ∉ e) :
    tatap_filename_compare (p ++ List.replicate k 48 ++ d ++ s ++ 46 :: e)
      (p ++ d ++ s ++ 46 :: e) = some 0 := by
  have gz : IsDigits (List.replicate k 48 ++ d) := by
    intro c hc
    rcases List.mem_append.1 hc with h | h
    · rw [(List.mem_replicate.1 h).2]; decide
    · exact gd c h
  have nz : List.replicate k 48 ++ d ≠ [] := by simp [nd]
  have hrun : run_compare (List.replicate k 48 ++ d) d = 0 := by
    unfold run_compare
    rw [if_pos ⟨isDigits_head gz nz, isDigits_head gd nd⟩, atoi_of_digits gz,
      atoi_of_digits gd, digits_value_zeros_append, sub_self]
    exact wrap_int_zero
  have hst : stem_compare (p ++ List.replicate k 48 ++ d ++ s) (p ++ d ++ s) = 0 := by
    have e1 : p ++ List.replicate k 48 ++ d ++ s = p ++ ((List.replicate k 48 ++ d) ++ s) := by
      simp [List.append_assoc]
    have e2 : p ++ d ++ s = p ++ (d ++ s) := by simp [List.append_assoc]
    rw [e1, e2, stem_compare_append p _ _
        (classBoundary_append_right s nz (isDigits_boundary_left hp gz))
        (classBoundary_append_right s nd (isDigits_boundary_left hp gd)),
      stem_compare_runs _ d s s nz nd
        (fun x hx => by rw [isDigits_class gz x hx, isDigits_head gz nz])
        (fun x hx => by rw [isDigits_class gd x hx, isDigits_head gd nd])
        (isDigits_boundary_right hs gz) (isDigits_boundary_right hs gd),
      if_pos hrun, stem_compare_self]
  rw [compare_split _ e _ e he he, hst, if_pos rfl, strcmp_self]

/-- C5, at the names `file007.txt` and `file7.txt`. -/
theorem tatap_filename_compare_leading_zeros_witness :
    tatap_filename_compare (ascii "file007.txt") (ascii "file7.txt") = some 0 :=
  tatap_filename_compare_leading_zeros (ascii "file") (ascii "7") [] (ascii "txt") 2
    (by decide) (by decide) (by decide) (by decide) (by decide)

/-- C6 (case insensitivity on text runs).  For two stems `s1`, `s2` that are equal after
ASCII case folding and extensions `e1`, `e2` without a `'.'`, the comparison of
`s1 ++ "." ++ e1` with `s2 ++ "." ++ e2` returns, and the result is `0` exactly when
`e1 = e2`: `0` for one common extension, non-zero as soon as the extensions differ, be
it only by letter case. -/
theorem tatap_filename_compare_casefold (s1 s2 e1 e2 : List Nat)
    (hs : s1.map ascii_tolower = s2.map ascii_tolower)
    (x1 : 46 ∉ e1) (x2 : 46 ∉ e2) (c1 : IsCStr e1) (c2 : IsCStr e2) :
    ∃ r, tatap_filename_compare (s1 ++ 46 :: e1) (s2 ++ 46 :: e2) = some r ∧
      (r = 0 ↔ e1 = e2) := by
  refine ⟨_, compare_split s1 e1 s2 e2 x1 x2, ?_⟩
  rw [stem_compare_casefold s1 s2 hs, if_pos rfl]
  exact strcmp_eq_zero c1.nulFree c2.nulFree

/-- C6, at `Apple.txt` against `apple.txt` (result `0`) and `Apple.TXT` against
`apple.txt` (result not `0`). -/
theorem tatap_filename_compare_casefold_witness :
    (∃ r, tatap_filename_compare (ascii "Apple.txt") (ascii "apple.txt") = some r ∧
      (r = 0 ↔ ascii "txt" = ascii "txt")) ∧
    (∃ r, tatap_filename_compare (ascii "Apple.TXT") (ascii "apple.txt") = some r ∧
      (r = 0 ↔ ascii "TXT" = ascii "txt")) :=
  ⟨tatap_filename_compare_casefold (ascii "Apple") (ascii "apple") (ascii "txt") (ascii "txt")
      (by decide) (by decide) (by decide) (by decide) (by decide),
    tatap_filename_compare_casefold (ascii "Apple") (ascii "apple") (ascii "TXT") (ascii "txt")
      (by decide) (by decide) (by decide) (by decide) (by decide)⟩

/-- C7 (extension tie-break).  For a stem `s` and extensions `e1`, `e2` without a `'.'`,
the comparison of `s ++ "." ++ e1` with `s ++ "." ++ e2` returns a number with the sign
of `strcmp e1 e2`: it is `0` exactly when `e1 = e2`, and negative exactly when `e1` comes
before `e2` in the byte-wise lexicographic order. -/
theorem tatap_filename_compare_extension (s e1 e2 : List Nat)
    (x1 : 46 ∉ e1) (x2 : 46 ∉ e2) (c1 : IsCStr e1) (c2 : IsCStr e2) :
    ∃ r, tatap_filename_compare (s ++ 46 :: e1) (s ++ 46 :: e2) = some r ∧
      Int.sign r = Int.sign (strcmp e1 e2) ∧ (r = 0 ↔ e1 = e2) ∧
      (r < 0 ↔ List.Lex (fun m n : Nat => m < n) e1 e2) := by
  refine ⟨_, compare_split s e1 s e2 x1 x2, ?_⟩
  rw [stem_compare_self, if_pos rfl]
  exact ⟨rfl, strcmp_eq_zero c1.nulFree c2.nulFree, strcmp_neg_iff_lex c1.nulFree c2.nulFree⟩

/-- C7, at the names `a.txt` and `a.TXT`. -/
theorem tatap_filename_compare_extension_witness :
    ∃ r, tatap_filename_compare (ascii "a.txt") (ascii "a.TXT") = some r ∧
      Int.sign r = Int.sign (strcmp (ascii "txt") (ascii "TXT")) ∧
      (r = 0 ↔ ascii "txt" = ascii "TXT") ∧
      (r < 0 ↔ List.Lex (fun m n : Nat => m < n) (ascii "txt") (ascii "TXT")) :=
  tatap_filename_compare_extension (ascii "a") (ascii "txt") (ascii "TXT")
    (by decide) (by decide) (by decide) (by decide)

/-- C8 (exhaustion before extension).  For a stem `s`, a non-empty `t` whose first byte
is not of the class (digit or non-digit) of the last byte of `s`, if any, and extensions
`e1`, `e2` without a `'.'`, the comparison of `s ++ "." ++ e1` with `s ++ t ++ "." ++ e2`
returns `-1` and the comparison the other way round returns `1`. -/
theorem tatap_filename_compare_exhaustion (s t e1 e2 : List Nat) (ht : t ≠ [])
    (hb : ClassBoundary s t) (x1 : 46 ∉ e1) (x2 : 46 ∉ e2) :
    tatap_filename_compare (s ++ 46 :: e1) (s ++ t ++ 46 :: e2) = some (-1) ∧
      tatap_filename_compare (s ++ t ++ 46 :: e2) (s ++ 46 :: e1) = some 1 := by
  have h1 : stem_compare s (s ++ t) = -1 := by
    have := stem_compare_append s [] t (classBoundary_nil_right s) hb
    rw [List.append_nil] at this
    rw [this]
    cases t with
    | nil => exact absurd rfl ht
    | cons c r => exact stem_compare_nil_cons c r
  have h2 : stem_compare (s ++ t) s = 1 := by
    have := stem_compare_append s t [] hb (classBoundary_nil_right s)
    rw [List.append_nil] at this
    rw [this]
    cases t with
    | nil => exact absurd rfl ht
    | cons c r => exact stem_compare_cons_nil c r
  constructor
  · rw [compare_split s e1 (s ++ t) e2 x1 x2, h1]; rfl
  · rw [compare_split (s ++ t) e2 s e1 x2 x1, h2]; rfl

/-- C8, at the names `a1.zip` and `a1b.tar`. -/
theorem tatap_filename_compare_exhaustion_witness :
    tatap_filename_compare (ascii "a1.zip") (ascii "a1b.tar") = some (-1) ∧
      tatap_filename_compare (ascii "a1b.tar") (ascii "a1.zip") = some 1 :=
  tatap_filename_compare_exhaustion (ascii "a1") (ascii "b") (ascii "zip") (ascii "tar")
    (by decide) (by decide) (by decide) (by decide)

/-- C9 (tokenizer round trip).  For every string `s` the repeated calls of
`tatap_string_get_next_part` from the start of `s`, each at the cursor the previous one
returned, reach an `Empty` part; the texts of the parts produced, in order, concatenate
to exactly `s`, and the `length` field of each part is the length of its text. -/
theorem tatap_string_parts_roundtrip (s : List Nat) :
    ∃ ps, tatap_string_parts s = some ps ∧ (ps.map part_text).flatten = s ∧
      ∀ p ∈ ps, p.length = (part_text p).length :=
  ⟨parts_of s, parts_eq s, parts_of_join s, parts_of_length s⟩

/-- C10 (maximal alternating runs).  For every string `s`, each part produced by the
repeated calls of `tatap_string_get_next_part` that is not `Empty` has a text, the text
is not empty, it is made of decimal digits only when the part is `Digit` and of other
bytes only when the part is `NonDigit`, and no two consecutive parts have the same
kind. -/
theorem tatap_string_parts_alternate (s : List Nat) :
    ∃ ps, tatap_string_parts s = some ps ∧
      (∀ p ∈ ps, p.type ≠ PART_TYPE_EMPTY →
        ∃ d, p.data = some d ∧ d ≠ [] ∧
          ((p.type = PART_TYPE_DIGIT ∧ ∀ c ∈ d, 48 ≤ c ∧ c ≤ 57) ∨
           (p.type = PART_TYPE_NONDIGIT ∧ ∀ c ∈ d, ¬ (48 ≤ c ∧ c ≤ 57)))) ∧
      ps.Chain' (fun p q => p.type ≠ q.type) := by
  refine ⟨parts_of s, parts_eq s, ?_, parts_of_alternate s⟩
  intro p hp hne
  obtain ⟨d, hd, hn, hc⟩ := parts_of_class s p hp hne
  refine ⟨d, hd, hn, ?_⟩
  cases d with
  | nil => exact absurd rfl hn
  | cons x xs =>
    rcases part_type_cases x with ⟨h1, _⟩ | ⟨h1, _⟩
    · left
      refine ⟨(hc x (List.mem_cons_self _ _)).symm.trans h1, ?_⟩
      intro c hcm
      have h2 : part_type c = PART_TYPE_DIGIT :=
        (hc c hcm).trans ((hc x (List.mem_cons_self _ _)).symm.trans h1)
      rcases part_type_cases c with ⟨_, h3⟩ | ⟨h3, _⟩
      · exact h3
      · rw [h2] at h3; exact absurd h3 (by decide)
    · right
      refine ⟨(hc x (List.mem_cons_self _ _)).symm.trans h1, ?_⟩
      intro c hcm
      have h2 : part_type c = PART_TYPE_NONDIGIT :=
        (hc c hcm).trans ((hc x (List.mem_cons_self _ _)).symm.trans h1)
      rcases part_type_cases c with ⟨h3, _⟩ | ⟨_, h3⟩
      · rw [h2] at h3; exact absurd h3 (by decide)
      · omega

/-- C11 (extension splitter).  `tatap_string_last_index_of_char str '.'` is `-1` exactly
when `str` has no `'.'`; otherwise it is an index of `str` that holds a `'.'`, no later
index holds one, the first `last_dot` bytes followed by `'.'` and by the bytes after
index `last_dot` give back `str`, and those last bytes hold no `'.'`. -/
theorem tatap_string_last_index_of_char_spec (str : List Nat) :
    ∃ r : Int, tatap_string_last_index_of_char str 46 = r ∧
      (46 ∉ str ↔ r = -1) ∧
      (46 ∈ str →
        0 ≤ r ∧ r < str.length ∧ str.getD r.toNat 0 = 46 ∧
        (∀ j : Nat, r < j → j < str.length → str.getD j 0 ≠ 46) ∧
        g_strndup str r.toNat ++ 46 :: str.drop (r + 1).toNat = str ∧
        46 ∉ str.drop (r + 1).toNat) := by
  refine ⟨_, rfl, ?_, ?_⟩
  · constructor
    · exact last_index_absent str 46
    · intro h hm
      obtain ⟨s, e, hx, hn⟩ := exists_last_split hm
      subst hx
      rw [last_index_split s e 46 hn] at h
      omega
  · intro hm
    obtain ⟨s, e, hx, hn⟩ := exists_last_split hm
    subst hx
    rw [last_index_split s e 46 hn]
    have e1 : ((s.length : Int) + 1).toNat = s.length + 1 := by omega
    refine ⟨by omega, by simp, ?_, ?_, ?_, ?_⟩
    · rw [Int.toNat_ofNat, List.getD_eq_getElem?_getD,
        List.getElem?_append_right (le_refl _)]
      simp
    · intro j hj hl
      have hj' : s.length < j := by omega
      have hk : j - s.length - 1 < e.length := by simp at hl; omega
      have hget : (s ++ 46 :: e).getD j 0 = e[j - s.length - 1] := by
        obtain ⟨k, rfl⟩ : ∃ k, j = s.length + 1 + k := ⟨j - s.length - 1, by omega⟩
        rw [List.getD_eq_getElem?_getD, List.getElem?_append_right (by omega)]
        have h1 : s.length + 1 + k - s.length = k + 1 := by omega
        have h2 : s.length + 1 + k - s.length - 1 = k := by omega
        simp only [h1, h2, List.getElem?_cons_succ]
        rw [List.getElem?_eq_getElem (by omega)]; rfl
      rw [hget]
      exact fun h => hn (h ▸ List.getElem_mem hk)
    · simp [g_strndup, e1]
    · simp [e1, hn]

/-- C12 (empty-string input), evaluated on the code: the empty name has no `'.'`, the
index is `-1`, and the comparison of the empty name with itself, or with the name
`a.txt` on either side, has no result. -/
theorem tatap_filename_compare_empty :
    tatap_string_last_index_of_char (ascii "") 46 = -1 ∧
      tatap_filename_compare (ascii "") (ascii "") = none ∧
      tatap_filename_compare (ascii "") (ascii "a.txt") = none ∧
      tatap_filename_compare (ascii "a.txt") (ascii "") = none := by
  decide

/-- C13 (tokenizer termination).  A call of `tatap_string_get_next_part` on a cursor
that is not exhausted returns a part that is not `Empty` and a cursor that is a strictly
shorter suffix of the one given; and for every string `s` the repeated calls reach an
`Empty` part, which is the last part and the only `Empty` one, after at most
`strlen s` other parts. -/
theorem tatap_string_get_next_part_progress (s : List Nat) :
    (∀ c rest, ∃ next part, tatap_string_get_next_part (c :: rest) = (some next, part) ∧
      part.type ≠ PART_TYPE_EMPTY ∧ next <:+ c :: rest ∧ next.length < (c :: rest).length) ∧
    (∃ init last, tatap_string_parts s = some (init ++ [last]) ∧
      last.type = PART_TYPE_EMPTY ∧ (∀ p ∈ init, p.type ≠ PART_TYPE_EMPTY) ∧
      init.length ≤ strlen s) := by
  constructor
  · intro c rest
    refine ⟨_, _, next_part_cons c rest, part_type_ne_empty c, ?_, ?_⟩
    · exact (List.dropWhile_suffix (same_class c)).trans (List.suffix_cons c rest)
    · have := (List.dropWhile_sublist (same_class c) (l := rest)).length_le
      simp only [List.length_cons]; omega
  · obtain ⟨init, h1, h2, h3⟩ := parts_of_shape s
    exact ⟨init, _, by rw [parts_eq, h1], rfl, h2, h3⟩

/-- C14 (totality, no scan of an exhausted cursor).  For two filenames with a `'.'` the
loop of `tatap_filename_compare`, run on the two stems, ends within
`min (parts stem_a) (parts stem_b) + 1` iterations, the parts other than `Empty` being
counted; the function returns that result, or the `strcmp` of the extensions when it is
`0`, a number in the `int` range.  The cursor returned by
`tatap_string_get_next_part` is `NULL` only with an `Empty` part, and an `Empty` part on
either side sets `end_flag`, so that the loop does not go on to read through it. -/
theorem tatap_filename_compare_total (x y : List Nat) (hx : IsCStr x) (hy : IsCStr y)
    (dx : 46 ∈ x) (dy : 46 ∈ y) :
    (∃ pa pb r res, tatap_string_parts (filename_stem x) = some pa ∧
      tatap_string_parts (filename_stem y) = some pb ∧
      tatap_filename_compare_loop (min (pa.length - 1) (pb.length - 1) + 1)
        (some (filename_stem x)) (some (filename_stem y)) = some r ∧
      tatap_filename_compare x y = some res ∧
      res = (if r = 0 then strcmp (filename_ext x) (filename_ext y) else r) ∧
      -2147483648 ≤ res ∧ res ≤ 2147483647) ∧
    (∀ str, (tatap_string_get_next_part str).1 = none ↔
      (tatap_string_get_next_part str).2.type = PART_TYPE_EMPTY) ∧
    (∀ pa pb : StrPart, pa.type = PART_TYPE_EMPTY ∨ pb.type = PART_TYPE_EMPTY →
      ∃ r, tatap_filename_compare_parts pa pb = some (r, 1)) := by
  refine ⟨?_, next_part_null_iff, compare_parts_empty⟩
  obtain ⟨s1, e1, ex, n1⟩ := exists_last_split dx
  obtain ⟨s2, e2, ey, n2⟩ := exists_last_split dy
  subst ex ey
  have b1 : IsBytes s1 := isBytes_mono (List.subset_append_left _ _) hx.isBytes
  have b2 : IsBytes s2 := isBytes_mono (List.subset_append_left _ _) hy.isBytes
  have c1 : IsBytes e1 :=
    isBytes_mono ((List.subset_cons_self _ _).trans (List.subset_append_right _ _)) hx.isBytes
  have c2 : IsBytes e2 :=
    isBytes_mono ((List.subset_cons_self _ _).trans (List.subset_append_right _ _)) hy.isBytes
  have hm : min ((parts_of s1).length - 1) ((parts_of s2).length - 1) + 1 =
      min (parts_of s1).length (parts_of s2).length := by
    have := parts_of_length_pos s1
    have := parts_of_length_pos s2
    omega
  rw [filename_stem_split s1 e1 n1, filename_stem_split s2 e2 n2,
    filename_ext_split s1 e1 n1, filename_ext_split s2 e2 n2]
  refine ⟨parts_of s1, parts_of s2, stem_compare s1 s2, _, parts_eq s1, parts_eq s2, ?_,
    compare_split s1 e1 s2 e2 n1 n2, rfl, ?_⟩
  · rw [hm]; exact compare_loop_eq_parts s1 s2
  · have h1 := stem_compare_bound s1 s2 b1 b2
    have h2 := strcmp_bound c1 c2
    split <;> omega

/-- C14, at the names `a1.zip` and `a1b.tar`. -/
theorem tatap_filename_compare_total_witness :
    (∃ pa pb r res, tatap_string_parts (filename_stem (ascii "a1.zip")) = some pa ∧
      tatap_string_parts (filename_stem (ascii "a1b.tar")) = some pb ∧
      tatap_filename_compare_loop (min (pa.length - 1) (pb.length - 1) + 1)
        (some (filename_stem (ascii "a1.zip"))) (some (filename_stem (ascii "a1b.tar")))
        = some r ∧
      tatap_filename_compare (ascii "a1.zip") (ascii "a1b.tar") = some res ∧
      res = (if r = 0 then strcmp (filename_ext (ascii "a1.zip"))
        (filename_ext (ascii "a1b.tar")) else r) ∧
      -2147483648 ≤ res ∧ res ≤ 2147483647) ∧
    (∀ str, (tatap_string_get_next_part str).1 = none ↔
      (tatap_string_get_next_part str).2.type = PART_TYPE_EMPTY) ∧
    (∀ pa pb : StrPart, pa.type = PART_TYPE_EMPTY ∨ pb.type = PART_TYPE_EMPTY →
      ∃ r, tatap_filename_compare_parts pa pb = some (r, 1)) :=
  tatap_filename_compare_total (ascii "a1.zip") (ascii "a1b.tar") (by decide) (by decide)
    (by decide) (by decide)

/-- C15 (short circuit).  Let `pa`, `pb` be the decompositions of two stems `s1`, `s2`
(C strings, digit runs within the `int` range).  When they do not match part by part,
they agree on some leading parts and the pair `p`, `q` that follows is unequal or has
`Empty` on one side only: the loop body gives it a result `r` other than `0`, and
`tatap_filename_compare` returns this `r` for all extensions without a `'.'`.  When they
match part by part, the result is that of `strcmp` on the extensions. -/
theorem tatap_filename_compare_short_circuit (s1 s2 : List Nat)
    (c1 : IsCStr s1) (c2 : IsCStr s2) (q1 : DigitRunsInRange s1) (q2 : DigitRunsInRange s2) :
    ∃ pa pb, tatap_string_parts s1 = some pa ∧ tatap_string_parts s2 = some pb ∧
      (¬ List.Forall₂ part_equal pa pb →
        ∃ ca p ta cb q tb r f, pa = ca ++ p :: ta ∧ pb = cb ++ q :: tb ∧
          List.Forall₂ part_equal ca cb ∧ ¬ part_equal p q ∧
          tatap_filename_compare_parts p q = some (r, f) ∧ r ≠ 0 ∧
          ∀ e1 e2, 46 ∉ e1 → 46 ∉ e2 →
            tatap_filename_compare (s1 ++ 46 :: e1) (s2 ++ 46 :: e2) = some r) ∧
      (List.Forall₂ part_equal pa pb →
        ∀ e1 e2, 46 ∉ e1 → 46 ∉ e2 →
          tatap_filename_compare (s1 ++ 46 :: e1) (s2 ++ 46 :: e2) = some (strcmp e1 e2)) := by
  have g1 : GoodStem s1 := ⟨c1.nulFree, q1⟩
  have g2 : GoodStem s2 := ⟨c2.nulFree, q2⟩
  refine ⟨parts_of s1, parts_of s2, parts_eq s1, parts_eq s2, ?_, ?_⟩
  · intro hn
    have hne : stem_compare s1 s2 ≠ 0 := fun h => hn ((stem_compare_eq_zero_iff s1 s2 g1 g2).1 h)
    obtain ⟨ca, p, ta, cb, q, tb, f, e1, e2, hf, hq, hc⟩ :=
      stem_compare_first_unequal s1 s2 g1 g2 hne
    refine ⟨ca, p, ta, cb, q, tb, stem_compare s1 s2, f, e1, e2, hf, hq, hc, hne, ?_⟩
    intro x1 x2 n1 n2
    rw [compare_split s1 x1 s2 x2 n1 n2, if_neg hne]
  · intro hf e1 e2 n1 n2
    rw [compare_split s1 e1 s2 e2 n1 n2, if_pos ((stem_compare_eq_zero_iff s1 s2 g1 g2).2 hf)]

/-- C15, at the stems `a1` and `a1b`, whose decompositions do not match: the
first has run out where the second has the part `b`. -/
theorem tatap_filename_compare_short_circuit_witness :
    (¬ List.Forall₂ part_equal
        [{ type := 1, length := 1, data := some [97] },
          { type := 0, length := 1, data := some [49] },
          { type := 2, length := 0, data := none }]
        [{ type := 1, length := 1, data := some [97] },
          { type := 0, length := 1, data := some [49] },
          { type := 1, length := 1, data := some [98] },
          { type := 2, length := 0, data := none }]) ∧
    ∃ pa pb, tatap_string_parts (ascii "a1") = some pa ∧
      tatap_string_parts (ascii "a1b") = some pb ∧
      (¬ List.Forall₂ part_equal pa pb →
        ∃ ca p ta cb q tb r f, pa = ca ++ p :: ta ∧ pb = cb ++ q :: tb ∧
          List.Forall₂ part_equal ca cb ∧ ¬ part_equal p q ∧
          tatap_filename_compare_parts p q = some (r, f) ∧ r ≠ 0 ∧
          ∀ e1 e2, 46 ∉ e1 → 46 ∉ e2 →
            tatap_filename_compare (ascii "a1" ++ 46 :: e1) (ascii "a1b" ++ 46 :: e2)
              = some r) ∧
      (List.Forall₂ part_equal pa pb →
        ∀ e1 e2, 46 ∉ e1 → 46 ∉ e2 →
          tatap_filename_compare (ascii "a1" ++ 46 :: e1) (ascii "a1b" ++ 46 :: e2)
            = some (strcmp e1 e2)) :=
  ⟨by decide,
    tatap_filename_compare_short_circuit (ascii "a1") (ascii "a1b") (by decide) (by decide)
      (digitRunsInRange_of_short (by decide)) (digitRunsInRange_of_short (by decide))⟩

/-- C16 (digit parts give the exact difference).  Let the stems be `p1 ++ d1 ++ t1` and
`p2 ++ d2 ++ t2`, where `p1`, `p2` are C strings with digit runs within the `int` range
whose decompositions match part by part (all parts before compare equal), and `d1`,
`d2` are whole digit runs with different values `m`, `n` within the `int` range.  Then
`atoi` reads `m` and `n`, the 32-bit difference is the exact `m - n`, and
`tatap_filename_compare` returns `m - n`, whatever the extensions. -/
theorem tatap_filename_compare_digit_difference (p1 p2 d1 d2 t1 t2 e1 e2 : List Nat)
    (pa pb : List StrPart)
    (c1 : IsCStr p1) (c2 : IsCStr p2) (q1 : DigitRunsInRange p1) (q2 : DigitRunsInRange p2)
    (hpa : tatap_string_parts p1 = some pa) (hpb : tatap_string_parts p2 = some pb)
    (hp : List.Forall₂ part_equal pa pb)
    (b1 : ∀ c ∈ p1.getLast?, g_ascii_isdigit c = false)
    (b2 : ∀ c ∈ p2.getLast?, g_ascii_isdigit c = false)
    (n1 : d1 ≠ []) (n2 : d2 ≠ []) (g1 : IsDigits d1) (g2 : IsDigits d2)
    (a1 : ∀ c ∈ t1.head?, g_ascii_isdigit c = false)
    (a2 : ∀ c ∈ t2.head?, g_ascii_isdigit c = false)
    (r1 : digits_value d1 ≤ 2147483647) (r2 : digits_value d2 ≤ 2147483647)
    (hne : digits_value d1 ≠ digits_value d2) (x1 : 46 ∉ e1) (x2 : 46 ∉ e2) :
    atoi d1 = (digits_value d1 : Int) ∧ atoi d2 = (digits_value d2 : Int) ∧
      wrap_int (atoi d1 - atoi d2) = (digits_value d1 : Int) - (digits_value d2 : Int) ∧
      tatap_filename_compare (p1 ++ d1 ++ t1 ++ 46 :: e1) (p2 ++ d2 ++ t2 ++ 46 :: e2) =
        some ((digits_value d1 : Int) - (digits_value d2 : Int)) := by
  have hz : stem_compare p1 p2 = 0 := by
    rw [parts_eq p1] at hpa
    rw [parts_eq p2] at hpb
    rw [stem_compare_eq_zero_iff p1 p2 ⟨c1.nulFree, q1⟩ ⟨c2.nulFree, q2⟩,
      Option.some.inj hpa, Option.some.inj hpb]
    exact hp
  have ok1 : RunOK d1 := ⟨n1, isDigits_nulFree g1, fun _ => ⟨g1, r1⟩⟩
  have ok2 : RunOK d2 := ⟨n2, isDigits_nulFree g2, fun _ => ⟨g2, r2⟩⟩
  have hrun : run_compare d1 d2 = (digits_value d1 : Int) - (digits_value d2 : Int) :=
    run_compare_digits ok1 ok2 (isDigits_head g1 n1) (isDigits_head g2 n2)
  have hnz : ¬ run_compare d1 d2 = 0 := by rw [hrun]; omega
  have hst : stem_compare (p1 ++ d1 ++ t1) (p2 ++ d2 ++ t2) = run_compare d1 d2 := by
    rw [List.append_assoc, List.append_assoc,
      stem_compare_append_of_eq p1 p2 _ _ hz
        (classBoundary_append_right t1 n1 (isDigits_boundary_left b1 g1))
        (classBoundary_append_right t2 n2 (isDigits_boundary_left b2 g2)),
      stem_compare_runs d1 d2 t1 t2 n1 n2
        (fun x hx => by rw [isDigits_class g1 x hx, isDigits_head g1 n1])
        (fun x hx => by rw [isDigits_class g2 x hx, isDigits_head g2 n2])
        (isDigits_boundary_right a1 g1) (isDigits_boundary_right a2 g2),
      if_neg hnz]
  refine ⟨atoi_in_range g1 r1, atoi_in_range g2 r2, ?_, ?_⟩
  · rw [atoi_in_range g1 r1, atoi_in_range g2 r2]
    exact wrap_int_of_range (by omega) (by omega)
  · rw [compare_split _ e1 _ e2 x1 x2, hst, if_neg hnz, hrun]

/-- C16, at the names `v1File2.txt` and `V01file10a.zip`: the parts `v`, `1`, `File`
and `V`, `01`, `file` compare equal, and the result is `2 - 10`. -/
theorem tatap_filename_compare_digit_difference_witness :
    atoi (ascii "2") = (digits_value (ascii "2") : Int) ∧
      atoi (ascii "10") = (digits_value (ascii "10") : Int) ∧
      wrap_int (atoi (ascii "2") - atoi (ascii "10")) =
        (digits_value (ascii "2") : Int) - (digits_value (ascii "10") : Int) ∧
      tatap_filename_compare (ascii "v1File2.txt") (ascii "V01file10a.zip") =
        some ((digits_value (ascii "2") : Int) - (digits_value (ascii "10") : Int)) :=
  tatap_filename_compare_digit_difference (ascii "v1File") (ascii "V01file") (ascii "2")
    (ascii "10") [] (ascii "a") (ascii "txt") (ascii "zip")
    [{ type := 1, length := 1, data := some (ascii "v") },
      { type := 0, length := 1, data := some (ascii "1") },
      { type := 1, length := 4, data := some (ascii "File") },
      { type := 2, length := 0, data := none }]
    [{ type := 1, length := 1, data := some (ascii "V") },
      { type := 0, length := 2, data := some (ascii "01") },
      { type := 1, length := 4, data := some (ascii "file") },
      { type := 2, length := 0, data := none }]
    (by decide) (by decide) (digitRunsInRange_of_short (by decide))
    (digitRunsInRange_of_short (by decide)) (by decide) (by decide) (by decide)
    (by decide) (by decide) (by decide) (by decide) (by decide) (by decide) (by decide)
    (by decide) (by decide) (by decide) (by decide) (by decide) (by decide)

/-- C17 (the bound of 255 bytes).  For two non-digit runs `r1`, `r2` longer than
`NAME_MAX = 255` bytes that agree on their first 255 bytes after case folding, and an
extension `e` without a `'.'`, the comparison of `r1 ++ "." ++ e` with `r2 ++ "." ++ e`
returns `0`, whatever the two runs hold behind their first 255 bytes. -/
theorem tatap_filename_compare_name_max (r1 r2 e : List Nat)
    (h1 : ∀ c ∈ r1, g_ascii_isdigit c = false) (h2 : ∀ c ∈ r2, g_ascii_isdigit c = false)
    (l1 : NAME_MAX < r1.length) (l2 : NAME_MAX < r2.length)
    (hk : (r1.take NAME_MAX).map ascii_tolower = (r2.take NAME_MAX).map ascii_tolower)
    (he : 46 ∉ e) :
    tatap_filename_compare (r1 ++ 46 :: e) (r2 ++ 46 :: e) = some 0 := by
  have n1 : r1 ≠ [] := by intro h; rw [h] at l1; simp at l1
  have n2 : r2 ≠ [] := by intro h; rw [h] at l2; simp at l2
  have t1 : part_type (head_byte r1) = PART_TYPE_NONDIGIT := by
    cases r1 with
    | nil => exact absurd rfl n1
    | cons c s => exact nondigit_class h1 c (List.mem_cons_self _ _)
  have t2 : part_type (head_byte r2) = PART_TYPE_NONDIGIT := by
    cases r2 with
    | nil => exact absurd rfl n2
    | cons c s => exact nondigit_class h2 c (List.mem_cons_self _ _)
  have hrun : run_compare r1 r2 = 0 := by
    rw [run_compare_text (by rw [t1]; simp)]
    exact strncasecmp_of_key NAME_MAX r1 r2 (le_of_lt l1) (le_of_lt l2) hk
  have hst : stem_compare r1 r2 = 0 := by
    have := stem_compare_runs r1 r2 [] [] n1 n2
      (fun x hx => by rw [nondigit_class h1 x hx, t1])
      (fun x hx => by rw [nondigit_class h2 x hx, t2])
      (classBoundary_nil_right _) (classBoundary_nil_right _)
    rw [List.append_nil, List.append_nil, if_pos hrun, stem_compare_nil_nil] at this
    exact this
  rw [compare_split r1 e r2 e he he, hst, if_pos rfl, strcmp_self]

/-- C17, at 255 times `a` followed by `b` against 255 times `A` followed by `c`. -/
theorem tatap_filename_compare_name_max_witness :
    tatap_filename_compare (List.replicate 255 97 ++ [98] ++ 46 :: ascii "txt")
      (List.replicate 255 65 ++ [99] ++ 46 :: ascii "txt") = some 0 :=
  tatap_filename_compare_name_max (List.replicate 255 97 ++ [98])
    (List.replicate 255 65 ++ [99]) (ascii "txt")
    (by
      intro c hc
      rcases List.mem_append.1 hc with h | h
      · rw [(List.mem_replicate.1 h).2]; decide
      · rw [List.mem_singleton.1 h]; decide)
    (by
      intro c hc
      rcases List.mem_append.1 hc with h | h
      · rw [(List.mem_replicate.1 h).2]; decide
      · rw [List.mem_singleton.1 h]; decide)
    (by rw [List.length_append, List.length_replicate]; decide)
    (by rw [List.length_append, List.length_replicate]; decide)
    (by
      rw [List.take_left' (List.length_replicate 255 97),
        List.take_left' (List.length_replicate 255 65), List.map_replicate,
        List.map_replicate]
      rfl)
    (by decide)

/-- C18 (end of string), as the claim has it, fails: at the exhausted cursor the
function does not give the cursor back. -/
theorem tatap_string_get_next_part_end_not_unchanged :
    ¬ ((tatap_string_get_next_part []).2.type = PART_TYPE_EMPTY ∧
      (tatap_string_get_next_part []).2.length = 0 ∧
      (tatap_string_get_next_part []).2.data = none ∧
      (tatap_string_get_next_part []).1 = some []) := by
  decide

/-- C18 (end of string), amended.  At the exhausted cursor `tatap_string_get_next_part`
writes a part of kind `Empty` with length `0` and no text, and returns the `NULL`
cursor. -/
theorem tatap_string_get_next_part_end :
    (tatap_string_get_next_part []).2.type = PART_TYPE_EMPTY ∧
      (tatap_string_get_next_part []).2.length = 0 ∧
      (tatap_string_get_next_part []).2.data = none ∧
      (tatap_string_get_next_part []).1 = none := by
  decide

/-- C19 (digit run against text run).  Let the stems be `p1 ++ d0 :: rest1` and
`p2 ++ u0 :: rest2`, where the loop on `p1`, `p2` ends with `0`, a part starts at the
digit `d0` on one side and at the non-digit `u0` on the other.  Then the result is
`d0 - TOLOWER u0`, and the negative of it with the names exchanged: it is never `0`,
negative (the name with the digit run first) when the folded `u0` is above `'9'` and
positive when it is below `'0'`, whatever follows and whatever the extensions. -/
theorem tatap_filename_compare_digit_text (p1 p2 rest1 rest2 e1 e2 : List Nat) (d0 u0 : Nat)
    (hp : tatap_filename_compare_loop (strlen p1 + 1) (some p1) (some p2) = some 0)
    (b1 : ClassBoundary p1 (d0 :: rest1)) (b2 : ClassBoundary p2 (u0 :: rest2))
    (hd : g_ascii_isdigit d0 = true) (hu : g_ascii_isdigit u0 = false)
    (x1 : 46 ∉ e1) (x2 : 46 ∉ e2) :
    ∃ r, tatap_filename_compare (p1 ++ d0 :: rest1 ++ 46 :: e1)
        (p2 ++ u0 :: rest2 ++ 46 :: e2) = some r ∧
      tatap_filename_compare (p2 ++ u0 :: rest2 ++ 46 :: e2)
        (p1 ++ d0 :: rest1 ++ 46 :: e1) = some (-r) ∧
      r = (d0 : Int) - (ascii_tolower u0 : Int) ∧ r ≠ 0 ∧
      (57 < ascii_tolower u0 → r < 0) ∧ (ascii_tolower u0 < 48 → 0 < r) ∧
      (57 < ascii_tolower u0 ∨ ascii_tolower u0 < 48) := by
  have hz := stem_compare_of_loop hp
  have td : part_type d0 = PART_TYPE_DIGIT := (part_type_digit_iff d0).2 hd
  have tu : part_type u0 ≠ PART_TYPE_DIGIT := by
    rw [Ne, part_type_digit_iff, hu]; decide
  have hcls : part_type d0 ≠ part_type u0 := by rw [td]; exact fun h => tu h.symm
  have m1 := run_compare_mixed (u := d0 :: rest1.takeWhile (same_class d0))
    (v := u0 :: rest2.takeWhile (same_class u0)) (by simp) (by simp) hcls
  have m2 := run_compare_mixed (u := u0 :: rest2.takeWhile (same_class u0))
    (v := d0 :: rest1.takeWhile (same_class d0)) (by simp) (by simp) (fun h => hcls h.symm)
  simp only [head_byte_cons, tolower_digit td] at m1 m2
  have hnz1 : ¬ ((d0 : Int) - (ascii_tolower u0 : Int) = 0) := by have := m1.2; omega
  have hnz2 : ¬ ((ascii_tolower u0 : Int) - (d0 : Int) = 0) := by have := m1.2; omega
  have s1 : stem_compare (p1 ++ d0 :: rest1) (p2 ++ u0 :: rest2) =
      (d0 : Int) - (ascii_tolower u0 : Int) := by
    rw [stem_compare_append_of_eq p1 p2 _ _ hz b1 b2, stem_compare_cons_cons, m1.1,
      if_neg hnz1]
  have s2 : stem_compare (p2 ++ u0 :: rest2) (p1 ++ d0 :: rest1) =
      (ascii_tolower u0 : Int) - (d0 : Int) := by
    rw [stem_compare_append_of_eq p2 p1 _ _ (stem_compare_zero_symm _ _ hz) b2 b1,
      stem_compare_cons_cons, m2.1, if_neg hnz2]
  have cu := part_type_cases (ascii_tolower u0)
  rw [part_type_tolower] at cu
  have cd := part_type_cases d0
  have hrange : 57 < ascii_tolower u0 ∨ ascii_tolower u0 < 48 := by
    rcases cu with ⟨h, _⟩ | ⟨_, h⟩
    · exact absurd h tu
    · exact h.symm
  have hdr : 48 ≤ d0 ∧ d0 ≤ 57 := by
    rcases cd with ⟨_, h⟩ | ⟨h, _⟩
    · exact h
    · rw [td] at h; exact absurd h (by decide)
  refine ⟨(d0 : Int) - (ascii_tolower u0 : Int), ?_, ?_, rfl, hnz1, ?_, ?_, hrange⟩
  · rw [compare_split _ e1 _ e2 x1 x2, s1, if_neg hnz1]
  · rw [compare_split _ e2 _ e1 x2 x1, s2, if_neg hnz2]
    congr 1; omega
  · intro h; omega
  · intro h; omega

/-- C19, at `1.txt` against `a.txt` (negative) and against `-.txt` (positive). -/
theorem tatap_filename_compare_digit_text_witness :
    (∃ r, tatap_filename_compare (ascii "1.txt") (ascii "a.txt") = some r ∧
      tatap_filename_compare (ascii "a.txt") (ascii "1.txt") = some (-r) ∧
      r = (49 : Int) - (ascii_tolower 97 : Int) ∧ r ≠ 0 ∧
      (57 < ascii_tolower 97 → r < 0) ∧ (ascii_tolower 97 < 48 → 0 < r) ∧
      (57 < ascii_tolower 97 ∨ ascii_tolower 97 < 48)) ∧
    (∃ r, tatap_filename_compare (ascii "1.txt") (ascii "-.txt") = some r ∧
      tatap_filename_compare (ascii "-.txt") (ascii "1.txt") = some (-r) ∧
      r = (49 : Int) - (ascii_tolower 45 : Int) ∧ r ≠ 0 ∧
      (57 < ascii_tolower 45 → r < 0) ∧ (ascii_tolower 45 < 48 → 0 < r) ∧
      (57 < ascii_tolower 45 ∨ ascii_tolower 45 < 48)) :=
  ⟨tatap_filename_compare_digit_text [] [] [] [] (ascii "txt") (ascii "txt") 49 97
      (by decide) (by decide) (by decide) (by decide) (by decide) (by decide) (by decide),
    tatap_filename_compare_digit_text [] [] [] [] (ascii "txt") (ascii "txt") 49 45
      (by decide) (by decide) (by decide) (by decide) (by decide) (by decide) (by decide)⟩

/-- C20 (when the result is `0`).  For filenames `x`, `y` (C strings with a `'.'`, digit
runs within the `int` range) `tatap_filename_compare x y` returns, the two stems
decompose into parts, and the result is `0` exactly when the extensions are the same
bytes and the decompositions match part by part: the same number of parts, each pair
two digit runs of equal value or two texts equal on their first 255 bytes after case
folding. -/
theorem tatap_filename_compare_eq_zero_iff (x y : List Nat)
    (hx : IsCStr x) (hy : IsCStr y) (dx : 46 ∈ x) (dy : 46 ∈ y)
    (rx : DigitRunsInRange x) (ry : DigitRunsInRange y) :
    ∃ r pa pb, tatap_filename_compare x y = some r ∧
      tatap_string_parts (filename_stem x) = some pa ∧
      tatap_string_parts (filename_stem y) = some pb ∧
      (r = 0 ↔ filename_ext x = filename_ext y ∧ List.Forall₂ part_equal pa pb) := by
  obtain ⟨s1, e1, ex, n1⟩ := exists_last_split dx
  obtain ⟨s2, e2, ey, n2⟩ := exists_last_split dy
  obtain ⟨g1, f1⟩ := goodStem_of_split ex hx rx
  obtain ⟨g2, f2⟩ := goodStem_of_split ey hy ry
  subst ex ey
  rw [filename_stem_split s1 e1 n1, filename_stem_split s2 e2 n2,
    filename_ext_split s1 e1 n1, filename_ext_split s2 e2 n2]
  refine ⟨_, parts_of s1, parts_of s2, compare_split s1 e1 s2 e2 n1 n2, parts_eq s1,
    parts_eq s2, ?_⟩
  rw [← stem_compare_eq_zero_iff s1 s2 g1 g2, ← strcmp_eq_zero f1 f2]
  by_cases hz : stem_compare s1 s2 = 0
  · rw [if_pos hz]; exact ⟨fun h => ⟨h, hz⟩, fun h => h.1⟩
  · rw [if_neg hz]; exact ⟨fun h => absurd h hz, fun h => absurd h.2 hz⟩

/-- C20, at the different names `a07.txt` and `A7.txt`, which compare equal. -/
theorem tatap_filename_compare_eq_zero_iff_witness :
    ascii "a07.txt" ≠ ascii "A7.txt" ∧
      tatap_filename_compare (ascii "a07.txt") (ascii "A7.txt") = some 0 ∧
      ∃ r pa pb, tatap_filename_compare (ascii "a07.txt") (ascii "A7.txt") = some r ∧
        tatap_string_parts (filename_stem (ascii "a07.txt")) = some pa ∧
        tatap_string_parts (filename_stem (ascii "A7.txt")) = some pb ∧
        (r = 0 ↔ filename_ext (ascii "a07.txt") = filename_ext (ascii "A7.txt") ∧
          List.Forall₂ part_equal pa pb) :=
  ⟨by decide, by decide,
    tatap_filename_compare_eq_zero_iff (ascii "a07.txt") (ascii "A7.txt") (by decide)
      (by decide) (by decide) (by decide) (digitRunsInRange_of_short (by decide))
      (digitRunsInRange_of_short (by decide))⟩

end Tatap
